import Mathlib

/-!
Verification of the task execution and verification engine of the
llm-x-language benchmark harness.

The embedding is shallow: Python strings are modelled as `List Char`
(sequences of Unicode code points), Python's fallible searches return
`Option`, dictionaries are association lists with distinct keys, and the
stateful `exec_run` pipelines are modelled as pure functions over an
explicit environment that records the outcome of each external effect
(model query, compiler check, process spawn, HTTP probe).
-/

namespace Spec2Proof

/-- Python strings, modelled as lists of Unicode code points. -/
abbrev PyStr := List Char

/-- `matchesFrom h n` is true when the needle `n` is a leading segment of the
haystack `h` (character-by-character comparison, as Python slice equality). -/
def matchesFrom : PyStr → PyStr → Bool
  | _, [] => true
  | [], _ :: _ => false
  | c :: cs, d :: ds => c == d && matchesFrom cs ds

/-- `occursAt text sub i` : the substring `sub` occurs in `text` at index `i`.
As in Python, the empty substring occurs at every index `0 ≤ i ≤ len(text)`. -/
def occursAt (text sub : PyStr) (i : Nat) : Bool :=
  decide (i ≤ text.length) && matchesFrom (text.drop i) sub

/-- The left-to-right scan behind Python `text.find(sub, start)`.  The `fuel`
argument bounds the number of positions still to inspect; it is always called
with enough fuel to reach the end of `text`, so it is an implementation
device for structural recursion, not part of the modelled semantics. -/
def pyFindFuel (text sub : PyStr) : Nat → Nat → Option Nat
  | _, 0 => none
  | start, fuel + 1 =>
    if occursAt text sub start then some start else pyFindFuel text sub (start + 1) fuel

/-- Embedding of Python `text.find(sub, start)`: the smallest index
`i ≥ start` at which `sub` occurs in `text`, or `none` (Python's `-1`). -/
def pyFind (text sub : PyStr) (start : Nat) : Option Nat :=
  pyFindFuel text sub start (text.length + 1 - start)

/-- Embedding of Python `text.rfind(sub, 0, stop)`: the largest index `i`
with `i + len(sub) ≤ stop` at which `sub` occurs in `text[0:stop]`,
or `none` (Python's `-1`). -/
def pyRFind (text sub : PyStr) (stop : Nat) : Option Nat :=
  ((List.range (text.length + 1)).filter
    (fun i => occursAt text sub i && decide (i + sub.length ≤ stop))).getLast?

theorem pyFindFuel_eq_some {text sub : PyStr} : ∀ {fuel start p : Nat},
    pyFindFuel text sub start fuel = some p →
    start ≤ p ∧ p ≤ text.length ∧ occursAt text sub p = true := by
  intro fuel
  induction fuel with
  | zero => intro start p h; cases h
  | succ n ih =>
    intro start p h
    rw [pyFindFuel] at h
    by_cases ho : occursAt text sub start = true
    · rw [if_pos ho] at h
      injection h with h
      subst h
      have hl : start ≤ text.length := by
        simp only [occursAt, Bool.and_eq_true, decide_eq_true_eq] at ho
        exact ho.1
      exact ⟨Nat.le_refl _, hl, ho⟩
    · rw [if_neg ho] at h
      rcases ih h with ⟨h1, h2, h3⟩
      exact ⟨by omega, h2, h3⟩

theorem pyFindFuel_min {text sub : PyStr} : ∀ {fuel start p c : Nat},
    pyFindFuel text sub start fuel = some p →
    start ≤ c → occursAt text sub c = true → p ≤ c := by
  intro fuel
  induction fuel with
  | zero => intro start p c h; cases h
  | succ n ih =>
    intro start p c h hc hocc
    rw [pyFindFuel] at h
    by_cases ho : occursAt text sub start = true
    · rw [if_pos ho] at h
      injection h with h
      omega
    · rw [if_neg ho] at h
      have hne : c ≠ start := fun he => ho (he ▸ hocc)
      exact ih h (by omega) hocc

theorem pyFindFuel_complete {text sub : PyStr} : ∀ {fuel start c : Nat},
    start ≤ c → occursAt text sub c = true → c < start + fuel →
    ∃ p, pyFindFuel text sub start fuel = some p := by
  intro fuel
  induction fuel with
  | zero => intro start c h1 h2 h3; omega
  | succ n ih =>
    intro start c h1 h2 h3
    rw [pyFindFuel]
    by_cases ho : occursAt text sub start = true
    · exact ⟨start, by rw [if_pos ho]⟩
    · have hne : c ≠ start := fun he => ho (he ▸ h2)
      rcases ih (show start + 1 ≤ c by omega) h2 (by omega) with ⟨p, hp⟩
      exact ⟨p, by rw [if_neg ho]; exact hp⟩

theorem pyFind_eq_some {text sub : PyStr} {start p : Nat}
    (h : pyFind text sub start = some p) :
    start ≤ p ∧ p ≤ text.length ∧ occursAt text sub p = true :=
  pyFindFuel_eq_some h

theorem pyFind_min {text sub : PyStr} {start p c : Nat}
    (h : pyFind text sub start = some p)
    (hc : start ≤ c) (hocc : occursAt text sub c = true) : p ≤ c :=
  pyFindFuel_min h hc hocc

theorem pyFind_complete {text sub : PyStr} {start c : Nat}
    (hc : start ≤ c) (hocc : occursAt text sub c = true) :
    ∃ p, pyFind text sub start = some p := by
  have hcl : c ≤ text.length := by
    simp only [occursAt, Bool.and_eq_true, decide_eq_true_eq] at hocc
    exact hocc.1
  unfold pyFind
  exact pyFindFuel_complete hc hocc (by omega)

/-- The `while` loop of `check_contains_matches` (src/utils.py:146-153),
fuelled for structural recursion: collect every index at which `sub` occurs
in `text`, restarting the search one past each hit. -/
def findAllFuel (text sub : PyStr) : Nat → Nat → List Nat
  | _, 0 => []
  | start, fuel + 1 =>
    match pyFind text sub start with
    | none => []
    | some p => p :: findAllFuel text sub (p + 1) fuel

/-- All indices at which `sub` occurs in `text` at or after `start`
(the collection loop of src/utils.py:146-153). -/
def findAllFrom (text sub : PyStr) (start : Nat) : List Nat :=
  findAllFuel text sub start (text.length + 1 - start)

/-- `ContainsMatch` (src/utils.py:10-14). -/
structure ContainsMatch where
  contains : PyStr
  before : Option PyStr
  after : Option PyStr

/-- The per-occurrence validity test of `check_contains_matches`
(src/utils.py:158-176): the `after` constraint uses `text.rfind(after, 0, c)`,
the `before` constraint uses `text.find(before, c + len(contains))`. -/
def position_valid (text : PyStr) (m : ContainsMatch) (c : Nat) : Bool :=
  (match m.after with
    | none => true
    | some a => (pyRFind text a c).isSome)
  &&
  (match m.before with
    | none => true
    | some b => (pyFind text b (c + m.contains.length)).isSome)

/-- One `ContainsMatch` succeeds when some occurrence of `contains` is valid
(src/utils.py:155-183; the loop breaks at the first valid occurrence). -/
def match_succeeds (text : PyStr) (m : ContainsMatch) : Bool :=
  (findAllFrom text m.contains 0).any (position_valid text m)

/-- Embedding of `check_contains_matches` (src/utils.py:123-188).  The mode
string "and" selects `all`; every other mode string falls into the `else`
branch, which is `any`. -/
def check_contains_matches (text : PyStr) (ms : List ContainsMatch) (mode : PyStr) : Bool :=
  let results := ms.map (match_succeeds text)
  if mode = "and".toList then results.all id else results.any id

/-! Specification-side predicates for claims C4 and C9, written from the
claim's words (an occurrence of `after` lying entirely strictly before the
occurrence of `contains`; an occurrence of `before` starting at or after its
end; a match succeeds when at least one occurrence is valid). -/

/-- Claim C4's notion of a valid occurrence `c` of `m.contains` in `text`. -/
def OccurrenceValid (text : PyStr) (m : ContainsMatch) (c : Nat) : Prop :=
  occursAt text m.contains c = true ∧
  (∀ a, m.after = some a → ∃ p, p + a.length ≤ c ∧ occursAt text a p = true) ∧
  (∀ b, m.before = some b → ∃ q, c + m.contains.length ≤ q ∧ occursAt text b q = true)

/-- Claim C4's notion of a single match succeeding. -/
def MatchSucceeds (text : PyStr) (m : ContainsMatch) : Prop :=
  ∃ c, OccurrenceValid text m c

theorem pyFind_isSome_iff (text sub : PyStr) (start : Nat) :
    (pyFind text sub start).isSome = true ↔
      ∃ i, start ≤ i ∧ occursAt text sub i = true := by
  constructor
  · intro h
    rcases Option.isSome_iff_exists.mp h with ⟨p, hp⟩
    rcases pyFind_eq_some hp with ⟨h1, _, h3⟩
    exact ⟨p, h1, h3⟩
  · rintro ⟨i, hi, hocc⟩
    rcases pyFind_complete hi hocc with ⟨p, hp⟩
    simp [hp]

theorem pyRFind_isSome_iff (text sub : PyStr) (stop : Nat) :
    (pyRFind text sub stop).isSome = true ↔
      ∃ p, p + sub.length ≤ stop ∧ occursAt text sub p = true := by
  unfold pyRFind
  rw [List.getLast?_isSome]
  constructor
  · intro h
    obtain ⟨x, hx⟩ := List.exists_mem_of_ne_nil _ h
    have hxf := List.mem_filter.mp hx
    have := hxf.2
    simp only [Bool.and_eq_true, decide_eq_true_eq] at this
    exact ⟨x, this.2, this.1⟩
  · rintro ⟨p, hle, hocc⟩
    intro hnil
    have hpl : p ≤ text.length := by
      simp only [occursAt, Bool.and_eq_true, decide_eq_true_eq] at hocc
      exact hocc.1
    have hmem : p ∈ List.range (text.length + 1) := List.mem_range.mpr (by omega)
    have hin : p ∈ (List.range (text.length + 1)).filter
        (fun i => occursAt text sub i && decide (i + sub.length ≤ stop)) :=
      List.mem_filter.mpr ⟨hmem, by simp [hocc, hle]⟩
    rw [hnil] at hin
    cases hin

theorem findAllFuel_mem (text sub : PyStr) (c : Nat) : ∀ (fuel start : Nat),
    text.length + 1 ≤ start + fuel →
    (c ∈ findAllFuel text sub start fuel ↔ start ≤ c ∧ occursAt text sub c = true) := by
  intro fuel
  induction fuel with
  | zero =>
    intro start hinv
    rw [findAllFuel]
    constructor
    · intro h; cases h
    · rintro ⟨h1, h2⟩
      have hcl : c ≤ text.length := by
        simp only [occursAt, Bool.and_eq_true, decide_eq_true_eq] at h2
        exact h2.1
      omega
  | succ n ih =>
    intro start hinv
    rw [findAllFuel]
    cases hp : pyFind text sub start with
    | none =>
      constructor
      · intro h; cases h
      · rintro ⟨h1, h2⟩
        rcases pyFind_complete h1 h2 with ⟨p, hps⟩
        rw [hp] at hps; cases hps
    | some p =>
      have hb := pyFind_eq_some hp
      have hrec := ih (p + 1) (by omega)
      constructor
      · intro h
        rcases List.mem_cons.mp h with he | hm
        · subst he; exact ⟨hb.1, hb.2.2⟩
        · rcases hrec.mp hm with ⟨h1, h2⟩; exact ⟨by omega, h2⟩
      · rintro ⟨hle, hocc⟩
        by_cases hcp : c = p
        · subst hcp; exact List.mem_cons_self _ _
        · have := pyFind_min hp hle hocc
          exact List.mem_cons_of_mem _ (hrec.mpr ⟨by omega, hocc⟩)

theorem mem_findAllFrom {text sub : PyStr} {c start : Nat} :
    c ∈ findAllFrom text sub start ↔ start ≤ c ∧ occursAt text sub c = true := by
  unfold findAllFrom
  exact findAllFuel_mem text sub c (text.length + 1 - start) start (by omega)

theorem position_valid_iff (text : PyStr) (m : ContainsMatch) (c : Nat) :
    position_valid text m c = true ↔
      ((∀ a, m.after = some a → ∃ p, p + a.length ≤ c ∧ occursAt text a p = true) ∧
       (∀ b, m.before = some b → ∃ q, c + m.contains.length ≤ q ∧ occursAt text b q = true)) := by
  unfold position_valid
  rw [Bool.and_eq_true]
  constructor
  · rintro ⟨h1, h2⟩
    constructor
    · intro a ha
      rw [ha] at h1
      exact (pyRFind_isSome_iff text a c).mp h1
    · intro b hb
      rw [hb] at h2
      exact (pyFind_isSome_iff text b (c + m.contains.length)).mp h2
  · rintro ⟨h1, h2⟩
    constructor
    · cases ha : m.after with
      | none => rfl
      | some a => exact (pyRFind_isSome_iff text a c).mpr (h1 a ha)
    · cases hb : m.before with
      | none => rfl
      | some b => exact (pyFind_isSome_iff text b _).mpr (h2 b hb)

theorem match_succeeds_iff (text : PyStr) (m : ContainsMatch) :
    match_succeeds text m = true ↔ MatchSucceeds text m := by
  unfold match_succeeds MatchSucceeds OccurrenceValid
  rw [List.any_eq_true]
  constructor
  · rintro ⟨c, hc, hv⟩
    have ho := (mem_findAllFrom.mp hc).2
    rcases (position_valid_iff text m c).mp hv with ⟨ha, hb⟩
    exact ⟨c, ho, ha, hb⟩
  · rintro ⟨c, ho, ha, hb⟩
    exact ⟨c, mem_findAllFrom.mpr ⟨Nat.zero_le _, ho⟩,
      (position_valid_iff text m c).mpr ⟨ha, hb⟩⟩

/-- C4.  `check_contains_matches` judges an occurrence of `contains` valid
exactly when (if `after` is set) some occurrence of `after` lies entirely
strictly before it and (if `before` is set) some occurrence of `before`
starts at or after its end; a single match succeeds iff at least one
occurrence is valid; with mode "and" the overall result is true iff every
match succeeds, with mode "or" iff at least one match succeeds. -/
theorem claim_C4 (text : PyStr) (ms : List ContainsMatch) :
    (∀ m c, occursAt text m.contains c = true →
        (position_valid text m c = true ↔ OccurrenceValid text m c)) ∧
    (∀ m, match_succeeds text m = true ↔ MatchSucceeds text m) ∧
    (check_contains_matches text ms ("and".toList) = true ↔
      ∀ m ∈ ms, MatchSucceeds text m) ∧
    (check_contains_matches text ms ("or".toList) = true ↔
      ∃ m ∈ ms, MatchSucceeds text m) := by
  refine ⟨?_, match_succeeds_iff text, ?_, ?_⟩
  · intro m c hocc
    rw [position_valid_iff]
    unfold OccurrenceValid
    constructor
    · rintro ⟨ha, hb⟩; exact ⟨hocc, ha, hb⟩
    · rintro ⟨_, ha, hb⟩; exact ⟨ha, hb⟩
  · unfold check_contains_matches
    rw [if_pos rfl, List.all_eq_true]
    constructor
    · intro h m hm
      exact (match_succeeds_iff text m).mp (h _ (List.mem_map_of_mem _ hm))
    · intro h b hb
      rcases List.mem_map.mp hb with ⟨m, hm, hv⟩
      rw [← hv]
      exact (match_succeeds_iff text m).mpr (h m hm)
  · unfold check_contains_matches
    rw [if_neg (by decide)]
    simp only [List.any_eq_true]
    constructor
    · rintro ⟨b, hb, hv⟩
      rcases List.mem_map.mp hb with ⟨m, hm, hmv⟩
      rw [← hmv] at hv
      exact ⟨m, hm, (match_succeeds_iff text m).mp (by simpa using hv)⟩
    · rintro ⟨m, hm, hv⟩
      exact ⟨match_succeeds text m, List.mem_map_of_mem _ hm,
        by simpa using (match_succeeds_iff text m).mpr hv⟩

/-- Witness for C4 at the spec's contains scenario: in the text
"import Foo ... Foo.bar() ..." the match
(contains "Foo.bar", after "import Foo", before the closing brace) succeeds. -/
theorem claim_C4_witness :
    MatchSucceeds ("import Foo\nfunc example() \x7b return Foo.bar() \x7d".toList)
      ⟨"Foo.bar".toList, some "\x7d".toList, some "import Foo".toList⟩ :=
  ((claim_C4 ("import Foo\nfunc example() \x7b return Foo.bar() \x7d".toList)
      [⟨"Foo.bar".toList, some "\x7d".toList, some "import Foo".toList⟩]).2.1
    ⟨"Foo.bar".toList, some "\x7d".toList, some "import Foo".toList⟩).mp (by decide)

/-- C9.  On an empty match list `check_contains_matches` returns true exactly
for the mode string "and" and false for every other mode string; in general,
every mode string other than "and" is evaluated with or-semantics. -/
theorem claim_C9 :
    (∀ text : PyStr, check_contains_matches text [] ("and".toList) = true) ∧
    (∀ (text mode : PyStr), mode ≠ "and".toList →
      check_contains_matches text [] mode = false) ∧
    (∀ (text mode : PyStr) (ms : List ContainsMatch), mode ≠ "and".toList →
      check_contains_matches text ms mode = check_contains_matches text ms ("or".toList)) := by
  refine ⟨?_, ?_, ?_⟩
  · intro text
    unfold check_contains_matches
    rw [if_pos rfl]
    rfl
  · intro text mode h
    unfold check_contains_matches
    rw [if_neg h]
    rfl
  · intro text mode ms h
    unfold check_contains_matches
    rw [if_neg h, if_neg (by decide)]

/-- Witness for C9: on the empty match list, mode "and" yields true and the
mode string "xyz" (neither "and" nor "or") yields false. -/
theorem claim_C9_witness :
    check_contains_matches ("x".toList) [] ("and".toList) = true ∧
    check_contains_matches ("x".toList) [] ("xyz".toList) = false :=
  ⟨claim_C9.1 _, claim_C9.2.1 _ _ (by decide)⟩

/-! ## Fenced code-block extraction (src/utils.py:62-90)

The regex  (triple backtick)[ \t]*(\S*)[ \t]*\n([\s\S]*?)(triple backtick)
is embedded as an explicit scanner: at a fence, skip spaces/tabs, read a
maximal run of non-whitespace characters as the language tag, skip
spaces/tabs, require a newline, then take the body up to the first closing
fence.  `re.findall` tries each successive start position and resumes after
the end of every successful match; the scanner does the same. -/

/-- The backtick character. -/
def tickc : Char := Char.ofNat 96

/-- A fence: three backticks. -/
def tick3 : PyStr := [tickc, tickc, tickc]

/-- Space or tab, the regex class [ \t]. -/
def isSpaceTab (c : Char) : Bool := c == ' ' || c == '\t'

/-- Python's regex class \S (non-whitespace), over the ASCII whitespace set. -/
def isPyNonSpace (c : Char) : Bool :=
  !(c == ' ' || c == '\t' || c == '\n' || c == '\r' || c == '\x0b' || c == '\x0c')

/-- Python whitespace, the character set stripped by `str.strip()`. -/
def isPyWhite (c : Char) : Bool :=
  c == ' ' || c == '\t' || c == '\n' || c == '\r' || c == '\x0b' || c == '\x0c'

/-- Embedding of Python `str.strip()`: drop whitespace from both ends. -/
def pyStrip (s : PyStr) : PyStr :=
  ((s.dropWhile isPyWhite).reverse.dropWhile isPyWhite).reverse

/-- Split a string at the first fence: `some (pre, rest)` when the string is
`pre ++ tick3 ++ rest` with no fence starting inside `pre` (the non-greedy
body capture `[\s\S]*?` of the regex). -/
def splitAtFence : PyStr → Option (PyStr × PyStr)
  | [] => none
  | c :: cs =>
    if matchesFrom (c :: cs) tick3 then some ([], cs.drop 2)
    else
      match splitAtFence cs with
      | none => none
      | some (pre, rest) => some (c :: pre, rest)

/-- After the opening fence: skip the optional spaces/tabs before the tag. -/
def fenceTail (s : PyStr) : PyStr := (s.drop 3).dropWhile isSpaceTab

/-- The language tag: the maximal \S run after the opening fence. -/
def fenceLang (s : PyStr) : PyStr := (fenceTail s).takeWhile isPyNonSpace

/-- What remains after the tag and the optional spaces/tabs following it. -/
def fenceAfterLang (s : PyStr) : PyStr :=
  ((fenceTail s).dropWhile isPyNonSpace).dropWhile isSpaceTab

/-- Attempt the block regex at the head of `s`: fence, optional spaces/tabs,
language tag (maximal \S run), optional spaces/tabs, newline, then the body
up to the first closing fence.  Returns `(language, body, rest)`. -/
def matchFenceHere (s : PyStr) : Option (PyStr × PyStr × PyStr) :=
  if matchesFrom s tick3 then
    match fenceAfterLang s with
    | [] => none
    | c :: body0 =>
      if c == '\n' then
        match splitAtFence body0 with
        | some (body, rest) => some (fenceLang s, body, rest)
        | none => none
      else none
  else none

/-- The `re.findall` scan: try each position, resume after each match
(`fuel` bounds the number of steps; it is called with the text length,
which suffices because every step consumes at least one character). -/
def scanFuel : Nat → PyStr → List (PyStr × PyStr)
  | 0, _ => []
  | fuel + 1, s =>
    match matchFenceHere s with
    | some (lang, body, rest) => (lang, body) :: scanFuel fuel rest
    | none =>
      match s with
      | [] => []
      | _ :: cs => scanFuel fuel cs

/-- All regex matches of the code-block pattern in `markdown`
(the `matches` list of src/utils.py:76). -/
def rawBlocks (markdown : PyStr) : List (PyStr × PyStr) :=
  scanFuel markdown.length markdown

theorem scanFuel_nil : ∀ fuel, scanFuel fuel [] = []
  | 0 => rfl
  | _ + 1 => rfl

theorem scanFuel_succ (fuel : Nat) (s : PyStr) :
    scanFuel (fuel + 1) s =
      match matchFenceHere s with
      | some (lang, body, rest) => (lang, body) :: scanFuel fuel rest
      | none =>
        match s with
        | [] => []
        | _ :: cs => scanFuel fuel cs := rfl

/-- Python `needle in haystack`, substring containment. -/
def pyContainsSub (haystack needle : PyStr) : Bool :=
  (pyFind haystack needle 0).isSome

/-- Embedding of `find_code_blocks_with_language` (src/utils.py:62-90):
the first block is always kept; a later block is dropped exactly when its
stripped body is a substring of the first block's stripped body. -/
def find_code_blocks_with_language (markdown : PyStr) : List (PyStr × PyStr) :=
  match rawBlocks markdown with
  | [] => []
  | first :: rest =>
    first :: rest.filter (fun lc => !(pyContainsSub (pyStrip first.2) (pyStrip lc.2)))

/-- C6.  In the result of `find_code_blocks_with_language`, the first fenced
block of the input is always present (as the head); every subsequent block
whose trimmed body is a substring of the first block's trimmed body is
absent from the remainder; and every subsequent block whose trimmed body is
not such a substring is present, regardless of its declared language tag. -/
theorem claim_C6 (markdown : PyStr) (first : PyStr × PyStr)
    (rest : List (PyStr × PyStr)) (h : rawBlocks markdown = first :: rest) :
    (find_code_blocks_with_language markdown).head? = some first ∧
    (∀ b ∈ rest, pyContainsSub (pyStrip first.2) (pyStrip b.2) = true →
        b ∉ (find_code_blocks_with_language markdown).tail) ∧
    (∀ b ∈ rest, pyContainsSub (pyStrip first.2) (pyStrip b.2) = false →
        b ∈ (find_code_blocks_with_language markdown).tail) := by
  unfold find_code_blocks_with_language
  rw [h]
  refine ⟨rfl, ?_, ?_⟩
  · intro b hb hsub hmem
    have := (List.mem_filter.mp hmem).2
    rw [hsub] at this
    cases this
  · intro b hb hsub
    exact List.mem_filter.mpr ⟨hb, by rw [hsub]; rfl⟩

/-- Witness for C6 on a three-block input: the first block is kept, the
second block ("bc d", a substring of the first block's "abc def") is
dropped, the third block ("zzz") is kept although it carries no tag. -/
theorem claim_C6_witness :
    (find_code_blocks_with_language
        ("```rust\nabc def\n```\n```py\nbc d\n```\n```\nzzz\n```".toList)).head? =
      some ("rust".toList, "abc def\n".toList) ∧
    ("py".toList, "bc d\n".toList) ∉
      (find_code_blocks_with_language
        ("```rust\nabc def\n```\n```py\nbc d\n```\n```\nzzz\n```".toList)).tail ∧
    ("".toList, "zzz\n".toList) ∈
      (find_code_blocks_with_language
        ("```rust\nabc def\n```\n```py\nbc d\n```\n```\nzzz\n```".toList)).tail := by
  have h := claim_C6 ("```rust\nabc def\n```\n```py\nbc d\n```\n```\nzzz\n```".toList)
    ("rust".toList, "abc def\n".toList)
    [("py".toList, "bc d\n".toList), ("".toList, "zzz\n".toList)] (by decide)
  exact ⟨h.1,
    h.2.1 ("py".toList, "bc d\n".toList) (by decide) (by decide),
    h.2.2 ("".toList, "zzz\n".toList) (by decide) (by decide)⟩

/-! ## Idempotence of extraction (claim C7) -/

/-- Lowercasing, Python `str.lower()` (ASCII). -/
def pyLower (s : PyStr) : PyStr := s.map Char.toLower

/-- The rust language-tag test of `query_code` (src/exec_rust/rust_utils.py:48):
`lang.lower() in ["rust", "rs"]`. -/
def rustTagged (lang : PyStr) : Bool :=
  pyLower lang == "rust".toList || pyLower lang == "rs".toList

/-- Python `"\n".join(...)`. -/
def pyJoinNL : List PyStr → PyStr
  | [] => []
  | [b] => b
  | b :: b2 :: bs => b ++ '\n' :: pyJoinNL (b2 :: bs)

/-- The tag-filter-and-join step of `query_code`
(src/exec_rust/rust_utils.py:47-49): the surviving blocks whose tag is a
rust alias, joined by a newline.  (`extract_rust` below adds the
conditional entry-point excision of lines 41-45 in front of this step.) -/
def joinRustBlocks (markdown : PyStr) : PyStr :=
  pyJoinNL (((find_code_blocks_with_language markdown).filter
    (fun lc => rustTagged lc.1)).map (fun lc => lc.2))

/-- A block body is well nested: no fence starts strictly inside it, even
when a closing fence is appended right after it. -/
def GoodBody (B : PyStr) : Prop :=
  ∀ i < B.length, matchesFrom ((B ++ tick3).drop i) tick3 = false

theorem matchesFrom_three (xs : PyStr) (a b c : Char) :
    matchesFrom xs [a, b, c] = true ↔
      xs[0]? = some a ∧ xs[1]? = some b ∧ xs[2]? = some c := by
  match xs with
  | [] => simp [matchesFrom]
  | [x] => simp [matchesFrom, Bool.and_eq_true, beq_iff_eq]
  | [x, y] => simp [matchesFrom, Bool.and_eq_true, beq_iff_eq]
  | x :: y :: z :: t =>
    simp only [matchesFrom, Bool.and_eq_true, beq_iff_eq, Bool.and_true,
      List.getElem?_cons_zero, List.getElem?_cons_succ, Option.some_inj]

theorem matchesFrom_drop_tick3 (l : PyStr) (i : Nat) :
    matchesFrom (l.drop i) tick3 = true ↔
      l[i]? = some tickc ∧ l[i + 1]? = some tickc ∧ l[i + 2]? = some tickc := by
  rw [show tick3 = [tickc, tickc, tickc] from rfl, matchesFrom_three,
    List.getElem?_drop, List.getElem?_drop, List.getElem?_drop, Nat.add_zero]

theorem goodBody_nil : GoodBody [] := by
  intro i hi
  cases hi

theorem goodBody_cons_shift {c : Char} {cs : PyStr} (h : GoodBody (c :: cs)) :
    GoodBody cs := by
  intro i hi
  have h2 := h (i + 1) (by simpa using Nat.succ_lt_succ hi)
  rw [← h2, List.cons_append, List.drop_succ_cons]

theorem getElem?_append_tick3 (u w : PyStr) (j : Nat) (hj : j < u.length + 3) :
    (u ++ tick3 ++ w)[j]? = (u ++ tick3)[j]? := by
  rw [List.append_assoc]
  by_cases h : j < u.length
  · rw [List.getElem?_append_left h, List.getElem?_append_left h]
  · have h1 : u.length ≤ j := Nat.le_of_not_lt h
    rw [List.getElem?_append_right h1, List.getElem?_append_right h1]
    exact List.getElem?_append_left (by simp only [tick3, List.length_cons]; omega)

/-- Whether a fence starts at a position inside `u` does not depend on what
follows the closing fence. -/
theorem matchesFrom_tick3_congr (u w : PyStr) (i : Nat) (hi : i ≤ u.length) :
    matchesFrom ((u ++ tick3 ++ w).drop i) tick3 =
      matchesFrom ((u ++ tick3).drop i) tick3 := by
  have e0 := getElem?_append_tick3 u w i (by omega)
  have e1 := getElem?_append_tick3 u w (i + 1) (by omega)
  have e2 := getElem?_append_tick3 u w (i + 2) (by omega)
  cases hr : matchesFrom ((u ++ tick3).drop i) tick3 with
  | true =>
    rcases (matchesFrom_drop_tick3 _ _).mp hr with ⟨a0, a1, a2⟩
    exact (matchesFrom_drop_tick3 _ _).mpr
      ⟨e0.trans a0, e1.trans a1, e2.trans a2⟩
  | false =>
    rw [Bool.eq_false_iff]
    intro htrue
    rcases (matchesFrom_drop_tick3 _ _).mp htrue with ⟨a0, a1, a2⟩
    rw [Bool.eq_false_iff] at hr
    exact hr ((matchesFrom_drop_tick3 _ _).mpr
      ⟨e0.symm.trans a0, e1.symm.trans a1, e2.symm.trans a2⟩)

/-- From a successful `splitAtFence` the input decomposes as
`pre ++ tick3 ++ rest`, with no fence starting inside `pre`. -/
theorem splitAtFence_sound : ∀ {s pre rest : PyStr},
    splitAtFence s = some (pre, rest) →
    s = pre ++ tick3 ++ rest ∧
      ∀ i < pre.length, matchesFrom (s.drop i) tick3 = false := by
  intro s
  induction s with
  | nil => intro pre rest h; cases h
  | cons c cs ih =>
    intro pre rest h
    rw [splitAtFence] at h
    by_cases hf : matchesFrom (c :: cs) tick3 = true
    · rw [if_pos hf] at h
      injection h with h
      injection h with h1 h2
      subst h1
      subst h2
      rcases (matchesFrom_three _ _ _ _).mp hf with ⟨e0, e1, e2⟩
      refine ⟨?_, by intro i hi; cases hi⟩
      cases cs with
      | nil => simp at e1
      | cons y cs2 =>
        cases cs2 with
        | nil => simp at e2
        | cons z t =>
          simp only [List.getElem?_cons_zero, List.getElem?_cons_succ,
            Option.some_inj] at e0 e1 e2
          subst e0
          subst e1
          subst e2
          rfl
    · rw [if_neg hf] at h
      cases hsp : splitAtFence cs with
      | none => rw [hsp] at h; cases h
      | some pr =>
        obtain ⟨pre1, rest1⟩ := pr
        rw [hsp] at h
        injection h with h
        injection h with h1 h2
        subst h2
        rcases ih hsp with ⟨he, hg⟩
        subst h1
        refine ⟨by rw [he]; simp [List.append_assoc], ?_⟩
        intro i hi
        cases i with
        | zero =>
          rw [List.drop_zero]
          exact Bool.eq_false_iff.mpr hf
        | succ j =>
          have hj : j < pre1.length := by
            simpa using Nat.lt_of_succ_lt_succ hi
          rw [List.drop_succ_cons]
          exact hg j hj

/-- The body returned by `splitAtFence` is well nested. -/
theorem splitAtFence_good {s pre rest : PyStr}
    (h : splitAtFence s = some (pre, rest)) : GoodBody pre := by
  rcases splitAtFence_sound h with ⟨he, hn⟩
  intro i hi
  rw [← matchesFrom_tick3_congr pre rest i (by omega)]
  rw [← he]
  exact hn i hi

/-- Joining two well-nested bodies with a newline is well nested. -/
theorem goodBody_join {B1 B2 : PyStr} (h1 : GoodBody B1) (h2 : GoodBody B2) :
    GoodBody (B1 ++ '\n' :: B2) := by
  intro i hi
  rw [Bool.eq_false_iff]
  intro ht
  rcases (matchesFrom_drop_tick3 _ _).mp ht with ⟨a0, a1, a2⟩
  have hL : (B1 ++ '\n' :: B2) ++ tick3 = B1 ++ '\n' :: (B2 ++ tick3) := by
    simp [List.append_assoc]
  rw [hL] at a0 a1 a2
  have hnl : (B1 ++ '\n' :: (B2 ++ tick3))[B1.length]? = some '\n' := by
    rw [List.getElem?_append_right (Nat.le_refl _)]
    simp
  have hlen : i < B1.length + 1 + B2.length := by
    simpa [Nat.add_comm, Nat.add_assoc, Nat.add_left_comm] using hi
  by_cases c1 : i + 2 < B1.length
  · have hb1 := h1 i (by omega)
    rw [Bool.eq_false_iff] at hb1
    apply hb1
    apply (matchesFrom_drop_tick3 _ _).mpr
    refine ⟨?_, ?_, ?_⟩
    · rw [List.getElem?_append_left (by omega)]
      rw [List.getElem?_append_left (by omega)] at a0
      exact a0
    · rw [List.getElem?_append_left (by omega)]
      rw [List.getElem?_append_left (by omega)] at a1
      exact a1
    · rw [List.getElem?_append_left (by omega)]
      rw [List.getElem?_append_left (by omega)] at a2
      exact a2
  · by_cases c2 : B1.length + 1 ≤ i
    · have hb2 := h2 (i - B1.length - 1) (by omega)
      rw [Bool.eq_false_iff] at hb2
      apply hb2
      apply (matchesFrom_drop_tick3 _ _).mpr
      have key : ∀ k, B1.length + 1 ≤ k →
          (B1 ++ '\n' :: (B2 ++ tick3))[k]? = (B2 ++ tick3)[k - B1.length - 1]? := by
        intro k hk
        rw [List.getElem?_append_right (by omega)]
        conv_lhs => rw [show k - B1.length = (k - B1.length - 1) + 1 from by omega]
        rw [List.getElem?_cons_succ]
      refine ⟨?_, ?_, ?_⟩
      · rw [← key i c2]; exact a0
      · rw [show i - B1.length - 1 + 1 = (i + 1) - B1.length - 1 from by omega,
          ← key (i + 1) (by omega)]
        exact a1
      · rw [show i - B1.length - 1 + 2 = (i + 2) - B1.length - 1 from by omega,
          ← key (i + 2) (by omega)]
        exact a2
    · -- the newline position B1.length is among i, i+1, i+2
      have hd : B1.length = i ∨ B1.length = i + 1 ∨ B1.length = i + 2 := by omega
      rcases hd with hd | hd | hd
      · rw [← hd] at a0
        exact absurd (Option.some_inj.mp (hnl.symm.trans a0)) (by decide)
      · rw [← hd] at a1
        exact absurd (Option.some_inj.mp (hnl.symm.trans a1)) (by decide)
      · rw [← hd] at a2
        exact absurd (Option.some_inj.mp (hnl.symm.trans a2)) (by decide)

/-- A join of well-nested bodies is well nested. -/
theorem goodBody_pyJoinNL : ∀ (bs : List PyStr),
    (∀ b ∈ bs, GoodBody b) → GoodBody (pyJoinNL bs)
  | [], _ => goodBody_nil
  | [b], h => by rw [pyJoinNL]; exact h b (by simp)
  | b :: b2 :: bs, h => by
    rw [pyJoinNL]
    exact goodBody_join (h b (by simp))
      (goodBody_pyJoinNL (b2 :: bs) (fun x hx => h x (List.mem_cons_of_mem _ hx)))

/-- The body produced by a successful fence match is well nested. -/
theorem matchFenceHere_body_good {s lang body rest : PyStr}
    (h : matchFenceHere s = some (lang, body, rest)) : GoodBody body := by
  unfold matchFenceHere at h
  split at h
  · split at h
    · cases h
    · split at h
      · split at h
        · next body1 rest1 hsp =>
          injection h with h
          injection h with h1 h2
          injection h2 with h2 h3
          subst h2
          exact splitAtFence_good hsp
        · cases h
      · cases h
  · cases h

/-- Every body scanned out of the text is well nested. -/
theorem scanFuel_bodies_good : ∀ (fuel : Nat) (s : PyStr) (lb : PyStr × PyStr),
    lb ∈ scanFuel fuel s → GoodBody lb.2 := by
  intro fuel
  induction fuel with
  | zero => intro s lb h; cases h
  | succ n ih =>
    intro s lb h
    rw [scanFuel_succ] at h
    cases hm : matchFenceHere s with
    | some r =>
      obtain ⟨lang, body, rest⟩ := r
      rw [hm] at h
      have h2 : lb ∈ (lang, body) :: scanFuel n rest := h
      rcases List.mem_cons.mp h2 with he | hmem
      · subst he
        exact matchFenceHere_body_good hm
      · exact ih rest lb hmem
    | none =>
      rw [hm] at h
      cases s with
      | nil => cases h
      | cons c cs => exact ih cs lb h

theorem mem_find_code_blocks {md : PyStr} {lb : PyStr × PyStr}
    (h : lb ∈ find_code_blocks_with_language md) : lb ∈ rawBlocks md := by
  unfold find_code_blocks_with_language at h
  cases hr : rawBlocks md with
  | nil =>
    rw [hr] at h
    have h2 : lb ∈ ([] : List (PyStr × PyStr)) := h
    cases h2
  | cons first rest =>
    rw [hr] at h
    have h2 : lb ∈ first :: rest.filter
        (fun lc => !(pyContainsSub (pyStrip first.2) (pyStrip lc.2))) := h
    rcases List.mem_cons.mp h2 with he | hm
    · subst he; exact List.mem_cons_self _ _
    · exact List.mem_cons_of_mem _ (List.mem_of_mem_filter hm)

/-- The joined rust blocks are well nested: the join never contains a
fence and never ends in a partial fence. -/
theorem joinRustBlocks_good (md : PyStr) : GoodBody (joinRustBlocks md) := by
  unfold joinRustBlocks
  apply goodBody_pyJoinNL
  intro b hb
  rcases List.mem_map.mp hb with ⟨lc, hlc, he⟩
  subst he
  exact scanFuel_bodies_good md.length md lc
    (mem_find_code_blocks (List.mem_of_mem_filter hlc))

/-- Appending a closing fence to a well-nested body splits back exactly. -/
theorem splitAtFence_append_tick3 : ∀ {B : PyStr}, GoodBody B →
    splitAtFence (B ++ tick3) = some (B, []) := by
  intro B
  induction B with
  | nil =>
    intro _
    rw [List.nil_append]
    rw [show tick3 = tickc :: tickc :: tickc :: [] from rfl]
    rw [splitAtFence, if_pos (by decide)]
    rfl
  | cons c cs ih =>
    intro hg
    have h0 : matchesFrom ((c :: cs) ++ tick3) tick3 = false := by
      simpa using hg 0 (by simp)
    rw [List.cons_append, splitAtFence, if_neg (by
      rw [← List.cons_append, h0]
      exact Bool.false_ne_true)]
    rw [ih (goodBody_cons_shift hg)]

/-- Scanning a single well-nested body wrapped in a rust-tagged fence yields
exactly that block. -/
theorem scan_wrapped (C : PyStr) (hg : GoodBody C) :
    rawBlocks ("```rust\n".toList ++ C ++ "```".toList) = [("rust".toList, C)] := by
  have hw : "```rust\n".toList ++ C ++ "```".toList =
      tickc :: tickc :: tickc :: 'r' :: 'u' :: 's' :: 't' :: '\n' :: (C ++ tick3) := by
    have h1 : "```rust\n".toList = [tickc, tickc, tickc, 'r', 'u', 's', 't', '\n'] := by
      decide
    have h2 : "```".toList = tick3 := by decide
    rw [h1, h2, List.append_assoc]
    rfl
  have hm : matchFenceHere
      (tickc :: tickc :: tickc :: 'r' :: 'u' :: 's' :: 't' :: '\n' :: (C ++ tick3)) =
      some ("rust".toList, C, []) := by
    unfold matchFenceHere
    rw [if_pos (by simp [matchesFrom, tick3])]
    rw [show fenceAfterLang
        (tickc :: tickc :: tickc :: 'r' :: 'u' :: 's' :: 't' :: '\n' :: (C ++ tick3)) =
        '\n' :: (C ++ tick3) from rfl]
    dsimp only
    rw [if_pos (by decide)]
    rw [splitAtFence_append_tick3 hg]
    rfl
  rw [rawBlocks, hw]
  rw [show (tickc :: tickc :: tickc :: 'r' :: 'u' :: 's' :: 't' :: '\n' ::
      (C ++ tick3)).length = (C ++ tick3).length + 7 + 1 from by simp]
  rw [scanFuel_succ, hm]
  dsimp only
  rw [scanFuel_nil]

/-- Scanning the join wrapped in one rust-tagged fence finds exactly one
block, holding the join. -/
theorem fcb_wrapped (markdown : PyStr) :
    find_code_blocks_with_language
        ("```rust\n".toList ++ joinRustBlocks markdown ++ "```".toList) =
      [("rust".toList, joinRustBlocks markdown)] := by
  have hs := scan_wrapped (joinRustBlocks markdown) (joinRustBlocks_good markdown)
  unfold find_code_blocks_with_language
  rw [hs]
  rfl

/-- The tag-filter-and-join step is idempotent on its own wrapped output. -/
theorem joinRustBlocks_wrap (markdown : PyStr) :
    joinRustBlocks ("```rust\n".toList ++ joinRustBlocks markdown ++ "```".toList) =
      joinRustBlocks markdown := by
  conv_lhs => rw [joinRustBlocks, fcb_wrapped markdown]
  rfl

/-! ## Rust entry-point excision (src/exec_rust/rust_utils.py:155-212, claim C5)

The regex  (attributes)* (async ws+)? fn ws+ main ws* ( ws* ) ws*
(-> ws* rettype-chars+)? ws* openbrace  is embedded as an explicit matcher.
Only the attribute part (non-greedy `.*?` inside each attribute and the
greedy repetition) has genuine alternatives; they are enumerated in the
regex engine's preference order.  Everything after a match's opening brace
is handled by the explicit brace counter of the source, which counts every
brace, including braces inside string literals. -/

/-- Opening curly brace. -/
def lbrace : Char := Char.ofNat 123

/-- Closing curly brace. -/
def rbrace : Char := Char.ofNat 125

/-- \w of the return-type character class (ASCII). -/
def isWordChar (c : Char) : Bool :=
  ('a' ≤ c && c ≤ 'z') || ('A' ≤ c && c ≤ 'Z') || ('0' ≤ c && c ≤ '9') || c == '_'

/-- The return-type character class  [\w:<,>\(\)\[\]\s]. -/
def isRetTypeChar (c : Char) : Bool :=
  isWordChar c || c == ':' || c == '<' || c == ',' || c == '>' ||
  c == '(' || c == ')' || c == '[' || c == ']' || isPyWhite c

/-- Rests after each closing bracket of an attribute, earliest first
(the non-greedy `.*?\]`, shortest extent preferred). -/
def afterRBrackets : PyStr → List PyStr
  | [] => []
  | c :: cs => if c == ']' then cs :: afterRBrackets cs else afterRBrackets cs

/-- Rests after consuming one attribute  #[...]\s* , in preference order. -/
def oneAttr : PyStr → List PyStr
  | '#' :: '[' :: s2 => (afterRBrackets s2).map (fun r => r.dropWhile isPyWhite)
  | _ => []

/-- Rests after consuming zero or more attributes, in the greedy repetition's
preference order (more attributes first, zero attributes last). -/
def attrsAlts : Nat → PyStr → List PyStr
  | 0, s => [s]
  | fuel + 1, s => ((oneAttr s).map (fun r => attrsAlts fuel r)).flatten ++ [s]

/-- Rests after the optional  async\s+  , the async branch preferred. -/
def asyncAlts (s : PyStr) : List PyStr :=
  match s with
  | 'a' :: 's' :: 'y' :: 'n' :: 'c' :: c :: r =>
    if isPyWhite c then [r.dropWhile isPyWhite, s] else [s]
  | _ => [s]

/-- Consume  fn\s+main\s*\(\s*\)  , returning the rest. -/
def parseCore (s : PyStr) : Option PyStr :=
  match s with
  | 'f' :: 'n' :: c :: r =>
    if isPyWhite c then
      match r.dropWhile isPyWhite with
      | 'm' :: 'a' :: 'i' :: 'n' :: r2 =>
        match r2.dropWhile isPyWhite with
        | '(' :: r4 =>
          match r4.dropWhile isPyWhite with
          | ')' :: r6 => some r6
          | _ => none
        | _ => none
      | _ => none
    else none
  | _ => none

/-- Consume  \s*(?:->\s*[\w:<,>\(\)\[\]\s]+)?\s*  followed by the opening
brace, returning the rest after the brace.  The whitespace runs and the
greedy class run are deterministic because each is followed by a character
excluded from it. -/
def parseTail (s : PyStr) : Option PyStr :=
  match s.dropWhile isPyWhite with
  | '-' :: '>' :: r2 =>
    let r3 := r2.dropWhile isPyWhite
    let r4 := r3.dropWhile isRetTypeChar
    if r3.length == r4.length then none
    else
      match r4 with
      | c :: r5 => if c == lbrace then some r5 else none
      | [] => none
  | c :: r5 => if c == lbrace then some r5 else none
  | [] => none

/-- Try the core and tail of the pattern on one alternative. -/
def coreTail (r : PyStr) : Option PyStr :=
  match parseCore r with
  | some r2 => parseTail r2
  | none => none

/-- First alternative on which the rest of the pattern succeeds. -/
def firstCoreTail : List PyStr → Option PyStr
  | [] => none
  | r :: rs =>
    match coreTail r with
    | some rest => some rest
    | none => firstCoreTail rs

/-- Match the whole fn-main pattern at the head of `s`; `some rest` is the
text following the matched opening brace. -/
def matchMainHere (s : PyStr) : Option PyStr :=
  firstCoreTail (((attrsAlts s.length s).map asyncAlts).flatten)

/-- `re.finditer`: scan left to right, resuming after each match; returns
(start, end) index pairs, `end` just past the opening brace. -/
def findMainMatches : Nat → Nat → PyStr → List (Nat × Nat)
  | 0, _, _ => []
  | fuel + 1, pos, s =>
    match s with
    | [] => []
    | _ :: cs =>
      match matchMainHere s with
      | some rest =>
        (pos, pos + (s.length - rest.length)) ::
          findMainMatches fuel (pos + (s.length - rest.length)) rest
      | none => findMainMatches fuel (pos + 1) cs

/-- The brace-counting loop (src/exec_rust/rust_utils.py:194-202): starting
with depth 1 just after the opening brace, consume characters, adjusting the
depth at every brace — including braces inside string literals — and stop
just after the depth reaches zero or at the end of input.  Returns the
number of characters consumed. -/
def braceScan : PyStr → Nat → Nat
  | [], _ => 0
  | c :: cs, count =>
    let count2 := if c == lbrace then count + 1 else if c == rbrace then count - 1 else count
    if count2 == 0 then 1 else 1 + braceScan cs count2

/-- The slice-reassembly loop of `remove_rust_main_function`:
keep `code[last:start]`, skip to the end of the brace scan, repeat. -/
def removeLoop (code : PyStr) : Nat → List (Nat × Nat) → PyStr
  | last, [] => code.drop last
  | last, (s0, e0) :: rest =>
    ((code.drop last).take (s0 - last)) ++
      removeLoop code (e0 + braceScan (code.drop e0) 1) rest

/-- Embedding of `remove_rust_main_function` (src/exec_rust/rust_utils.py:155-212). -/
def remove_rust_main_function (code : PyStr) : PyStr :=
  match findMainMatches code.length 0 code with
  | [] => code
  | ms => removeLoop code 0 ms

/-- C5 counterexample: on  fn main() with a string literal containing a
closing brace, followed by another function,  the excision does not remove
the entire main function — the brace counter stops at the decoy closing
brace inside the string literal, so the claimed output (main gone, only the
downstream code left) is not produced. -/
theorem claim_C5_counterexample :
    remove_rust_main_function
        ("fn main() \x7b let x = \"\x7d\"; \x7d\nfn other() \x7b\x7d".toList) ≠
      "\nfn other() \x7b\x7d".toList := by
  decide

/-- C5 amended: on that input the excision removes the text from the start
of `fn main` up to and including the first closing brace encountered by the
count — the decoy brace inside the string literal — leaving the tail of
main's body (a quote, a semicolon and main's real closing brace) in place,
followed by the intact downstream code. -/
theorem claim_C5 :
    remove_rust_main_function
        ("fn main() \x7b let x = \"\x7d\"; \x7d\nfn other() \x7b\x7d".toList) =
      "\"; \x7d\nfn other() \x7b\x7d".toList := by
  decide

/-! ## Extraction-and-concatenation of `query_code`
(src/exec_rust/rust_utils.py:36-49, claim C7) -/

/-- The entry-point munge of `query_code` (src/exec_rust/rust_utils.py:41-45)
on the found blocks: when there are at least two blocks and block 1's code
mentions `fn main` (`code_blocks[1][1].find("fn main") != -1`), block 0's
code is replaced by its `remove_rust_main_function` excision. -/
def mungeMain : List (PyStr × PyStr) → List (PyStr × PyStr)
  | b0 :: b1 :: rest =>
    if pyContainsSub b1.2 ("fn main".toList)
    then (b0.1, remove_rust_main_function b0.2) :: b1 :: rest
    else b0 :: b1 :: rest
  | bs => bs

/-- Whether the entry-point munge of `query_code` fires on this markdown. -/
def mainMunge (markdown : PyStr) : Bool :=
  match find_code_blocks_with_language markdown with
  | _ :: b1 :: _ => pyContainsSub b1.2 ("fn main".toList)
  | _ => false

/-- Extraction-and-concatenation for the target language Rust
(src/exec_rust/rust_utils.py:36-49): find the blocks, conditionally excise
the entry point from block 0, then join the blocks whose tag is a rust
alias with newlines. -/
def extract_rust (markdown : PyStr) : PyStr :=
  pyJoinNL (((mungeMain (find_code_blocks_with_language markdown)).filter
    (fun lc => rustTagged lc.1)).map (fun lc => lc.2))

theorem mungeMain_cons (b0 b1 : PyStr × PyStr) (rest : List (PyStr × PyStr)) :
    mungeMain (b0 :: b1 :: rest) =
      if pyContainsSub b1.2 ("fn main".toList)
      then (b0.1, remove_rust_main_function b0.2) :: b1 :: rest
      else b0 :: b1 :: rest := rfl

/-- When the munge does not fire, extraction is the plain
tag-filter-and-join. -/
theorem extract_rust_eq_join {markdown : PyStr} (h : mainMunge markdown = false) :
    extract_rust markdown = joinRustBlocks markdown := by
  have hm : mungeMain (find_code_blocks_with_language markdown) =
      find_code_blocks_with_language markdown := by
    unfold mainMunge at h
    cases hfcb : find_code_blocks_with_language markdown with
    | nil => rfl
    | cons b0 rest1 =>
      cases rest1 with
      | nil => rfl
      | cons b1 rest =>
        rw [hfcb] at h
        have h2 : pyContainsSub b1.2 ("fn main".toList) = false := h
        have hnc : ¬(pyContainsSub b1.2 ("fn main".toList) = true) := by
          intro hc
          rw [h2] at hc
          exact Bool.noConfusion hc
        rw [mungeMain_cons, if_neg hnc]
  rw [extract_rust, joinRustBlocks, hm]

/-- C7.  Corrected: extraction-and-concatenation is idempotent on
well-nested input whenever the entry-point munge does not fire on it
(fewer than two surviving blocks, or block 1 without `fn main`): wrapping
the result in one rust-tagged fence and re-running extraction returns the
same code.  With the munge, idempotence fails — see the counterexample. -/
theorem claim_C7 (markdown : PyStr) (h : mainMunge markdown = false) :
    extract_rust ("```rust\n".toList ++ extract_rust markdown ++ "```".toList) =
      extract_rust markdown := by
  rw [extract_rust_eq_join h]
  have hm2 : mainMunge
      ("```rust\n".toList ++ joinRustBlocks markdown ++ "```".toList) = false := by
    unfold mainMunge
    rw [fcb_wrapped markdown]
  rw [extract_rust_eq_join hm2]
  exact joinRustBlocks_wrap markdown

/-- Counterexample to the original claim: on this well-nested model text
the munge fires (block 1 holds `fn main`), the excision of block 0 splices
its stray backticks into a lone fence opener, and re-extracting the
wrapped result yields the empty string, not the first-pass output. -/
theorem claim_C7_counterexample :
    extract_rust ("```rust\n".toList ++
        extract_rust
          (("```rust\n``fn main() \x7b\x7d`\n```\nX\n" ++
            "```rust\nfn main()\x7b\x7d\n```").toList) ++
        "```".toList) ≠
      extract_rust
        (("```rust\n``fn main() \x7b\x7d`\n```\nX\n" ++
          "```rust\nfn main()\x7b\x7d\n```").toList) := by
  decide

/-- Witness for C7 at a single-block input, where the munge cannot fire. -/
theorem claim_C7_witness :
    mainMunge ("```rust\nfn add() \x7b\x7d\n```\nmore".toList) = false ∧
    extract_rust ("```rust\n".toList ++
        extract_rust ("```rust\nfn add() \x7b\x7d\n```\nmore".toList) ++ "```".toList) =
      extract_rust ("```rust\nfn add() \x7b\x7d\n```\nmore".toList) :=
  ⟨by decide, claim_C7 ("```rust\nfn add() \x7b\x7d\n```\nmore".toList) (by decide)⟩

/-! ## JSON-like values and `are_json_values_equal` (src/utils.py:100-120)

JSON-like Python values: `None`, booleans, integers, strings, lists, and
dicts (association lists; Python dicts preserve insertion order and have
distinct keys — the latter is the `WFJ` predicate).  Floats are outside the
model.  `repr`, used by the source only as a sort key, is embedded for
ASCII content: non-ASCII printable code points are kept verbatim. -/

mutual

inductive JVal where
  | jnull
  | jbool (b : Bool)
  | jint (n : Int)
  | jstr (s : PyStr)
  | jlist (l : JItems)
  | jdict (l : JEntries)

inductive JItems where
  | nil
  | cons (hd : JVal) (tl : JItems)

inductive JEntries where
  | nil
  | cons (k : PyStr) (v : JVal) (tl : JEntries)

end

mutual

def jsize : JVal → Nat
  | .jnull => 1
  | .jbool _ => 1
  | .jint _ => 1
  | .jstr _ => 1
  | .jlist l => 1 + jsizeItems l
  | .jdict l => 1 + jsizeEntries l

def jsizeItems : JItems → Nat
  | .nil => 0
  | .cons v tl => 1 + jsize v + jsizeItems tl

def jsizeEntries : JEntries → Nat
  | .nil => 0
  | .cons _ v tl => 1 + jsize v + jsizeEntries tl

end

/-- The member list of a JSON list. -/
def JItems.toList : JItems → List JVal
  | .nil => []
  | .cons v tl => v :: tl.toList

/-- The (key, value) association list of a JSON dict, in insertion order. -/
def JEntries.toList : JEntries → List (PyStr × JVal)
  | .nil => []
  | .cons k v tl => (k, v) :: tl.toList

def JItems.ofList : List JVal → JItems
  | [] => .nil
  | v :: vs => .cons v (JItems.ofList vs)

def JEntries.ofList : List (PyStr × JVal) → JEntries
  | [] => .nil
  | (k, v) :: kvs => .cons k v (JEntries.ofList kvs)

theorem jsize_lt_of_mem_items : ∀ {l : JItems} {v : JVal},
    v ∈ l.toList → jsize v < jsizeItems l
  | .nil, _, h => by cases h
  | .cons hd tl, v, h => by
    rcases List.mem_cons.mp h with he | hm
    · subst he
      rw [jsizeItems]
      omega
    · have := jsize_lt_of_mem_items hm
      rw [jsizeItems]
      omega

theorem jsize_lt_of_mem_entries : ∀ {l : JEntries} {kv : PyStr × JVal},
    kv ∈ l.toList → jsize kv.2 < jsizeEntries l
  | .nil, _, h => by cases h
  | .cons k v tl, kv, h => by
    rcases List.mem_cons.mp h with he | hm
    · subst he
      dsimp only
      rw [jsizeEntries]
      omega
    · have := jsize_lt_of_mem_entries hm
      rw [jsizeEntries]
      omega

/-- Scalar (non-container) values. -/
def IsPrimB : JVal → Bool
  | .jlist _ => false
  | .jdict _ => false
  | _ => true

/-- Python `==` on scalars: `None`, `bool`, `int`, `str`; Python's
`True == 1` and `False == 0` hold because `bool` is an `int` subclass.
This is also the fall-through comparison of src/utils.py:118-120 for any
pair that is not two dicts and not two lists (mixed containers compare
unequal). -/
def pyPrimEq : JVal → JVal → Bool
  | .jnull, .jnull => true
  | .jbool a, .jbool b => a == b
  | .jint a, .jint b => a == b
  | .jstr a, .jstr b => a == b
  | .jbool a, .jint b => (if a then (1 : Int) else 0) == b
  | .jint a, .jbool b => a == (if b then (1 : Int) else 0)
  | _, _ => false

/-- Single quote. -/
def squote : Char := Char.ofNat 39

/-- Double quote. -/
def dquote : Char := Char.ofNat 34

/-- Backslash. -/
def bslash : Char := Char.ofNat 92

/-- Lowercase hex digit. -/
def hexDig (n : Nat) : Char :=
  if n < 10 then Char.ofNat (48 + n) else Char.ofNat (87 + n)

/-- The quote character `repr` picks for a Python string: single quotes,
unless the string contains a single quote and no double quote. -/
def strReprQuote (s : PyStr) : Char :=
  if s.contains squote && !(s.contains dquote) then dquote else squote

/-- One character of `repr` of a string: escape the quote and the
backslash, use \t \n \r for those controls, \xHH for the remaining
controls, and keep everything else. -/
def escChar (q c : Char) : PyStr :=
  if c == q || c == bslash then [bslash, c]
  else if c == '\t' then [bslash, 't']
  else if c == '\n' then [bslash, 'n']
  else if c == '\r' then [bslash, 'r']
  else if c.toNat < 32 || c.toNat == 127 then
    [bslash, 'x', hexDig (c.toNat / 16 % 16), hexDig (c.toNat % 16)]
  else [c]

/-- Python `repr` of a string (ASCII fidelity). -/
def strRepr (s : PyStr) : PyStr :=
  strReprQuote s :: (s.map (escChar (strReprQuote s))).flatten ++ [strReprQuote s]

/-- `", ".join`, as used by `repr` of lists and dicts. -/
def commaSep : List PyStr → PyStr
  | [] => []
  | [x] => x
  | x :: y :: xs => x ++ ", ".toList ++ commaSep (y :: xs)

/-- Python `repr` of a JSON-like value (`fuel` is the structural-recursion
device; `pyRepr` below supplies enough for the whole tree). -/
def pyReprFuel : Nat → JVal → PyStr
  | 0, _ => []
  | f + 1, v =>
    match v with
    | .jnull => "None".toList
    | .jbool b => if b then "True".toList else "False".toList
    | .jint n => (toString n).toList
    | .jstr s => strRepr s
    | .jlist l => '[' :: commaSep (l.toList.map (pyReprFuel f)) ++ [']']
    | .jdict l =>
      lbrace :: commaSep
        (l.toList.map (fun kv => strRepr kv.1 ++ ": ".toList ++ pyReprFuel f kv.2)) ++ [rbrace]

/-- Python `repr`, the sort key of src/utils.py:116. -/
def pyRepr (v : JVal) : PyStr := pyReprFuel (jsize v) v

/-- Python string `<=`: lexicographic by code point. -/
def pyLeB : PyStr → PyStr → Bool
  | [], _ => true
  | _ :: _, [] => false
  | c :: cs, d :: ds =>
    if c.val < d.val then true else if d.val < c.val then false else pyLeB cs ds

/-- `sorted(value, key=repr)`: a stable sort by the `repr` key. -/
def sortByRepr (l : List JVal) : List JVal :=
  List.insertionSort (fun a b => pyLeB (pyRepr a) (pyRepr b) = true) l

/-- `set(value1.keys()) == set(value2.keys())`: mutual containment. -/
def keySetEq (l1 l2 : List (PyStr × JVal)) : Bool :=
  l1.all (fun kv => l2.any (fun kv2 => kv2.1 == kv.1)) &&
  l2.all (fun kv => l1.any (fun kv2 => kv2.1 == kv.1))

/-- Embedding of `are_json_values_equal` (src/utils.py:100-120), fuelled:
dicts compare by key set and by recursion on each key's values; lists
compare by length and then pairwise after both sides are independently
sorted by `repr`; anything else falls through to scalar `==`. -/
def jeqFuel : Nat → JVal → JVal → Bool
  | 0, _, _ => false
  | f + 1, .jdict l1, .jdict l2 =>
    keySetEq l1.toList l2.toList &&
      l1.toList.all (fun kv =>
        match l2.toList.lookup kv.1 with
        | some w => jeqFuel f kv.2 w
        | none => false)
  | f + 1, .jlist l1, .jlist l2 =>
    decide (l1.toList.length = l2.toList.length) &&
      ((sortByRepr l1.toList).zip (sortByRepr l2.toList)).all (fun p => jeqFuel f p.1 p.2)
  | _ + 1, a, b => pyPrimEq a b

/-- Embedding of `are_json_values_equal` (src/utils.py:100-120). -/
def are_json_values_equal (a b : JVal) : Bool := jeqFuel (jsize a) a b

/-- Well-formed JSON-like value: every dict has distinct keys, as Python
dicts do. -/
inductive WFJ : JVal → Prop where
  | jnull : WFJ .jnull
  | jbool (b : Bool) : WFJ (.jbool b)
  | jint (n : Int) : WFJ (.jint n)
  | jstr (s : PyStr) : WFJ (.jstr s)
  | jlist {l : JItems} : (∀ v ∈ l.toList, WFJ v) → WFJ (.jlist l)
  | jdict {l : JEntries} :
      (l.toList.map Prod.fst).Nodup → (∀ kv ∈ l.toList, WFJ kv.2) → WFJ (.jdict l)

/-! ### Association-list and pointwise-list helper lemmas -/

theorem lookup_some_mem {l : List (PyStr × JVal)} {k : PyStr} {v : JVal}
    (h : l.lookup k = some v) : (k, v) ∈ l := by
  rcases List.lookup_eq_some_iff.mp h with ⟨l1, l2, he, _⟩
  subst he
  exact List.mem_append_right _ (List.mem_cons_self _ _)

theorem mem_lookup_of_nodup : ∀ {l : List (PyStr × JVal)} {k : PyStr} {v : JVal},
    (k, v) ∈ l → (l.map Prod.fst).Nodup → l.lookup k = some v := by
  intro l
  induction l with
  | nil => intro k v hm _; cases hm
  | cons p tl ih =>
    intro k v hm hn
    obtain ⟨k1, v1⟩ := p
    rw [List.lookup_cons]
    rw [List.map_cons, List.nodup_cons] at hn
    rcases List.mem_cons.mp hm with he | hmem
    · injection he with h1 h2
      subst h1
      subst h2
      rw [show (k == k) = true from by simp]
    · have hk : (k == k1) = false := by
        rw [Bool.eq_false_iff]
        intro hbe
        have hkk : k = k1 := by simpa using hbe
        subst hkk
        exact hn.1 (List.mem_map.mpr ⟨(k, v), hmem, rfl⟩)
      rw [hk]
      exact ih hmem hn.2

theorem anyKey_iff_lookup_isSome {l : List (PyStr × JVal)} {k : PyStr} :
    l.any (fun kv2 => kv2.1 == k) = true ↔ (l.lookup k).isSome = true := by
  rw [List.lookup_isSome_iff, List.any_eq_true]
  constructor
  · rintro ⟨p, hp, hb⟩
    exact ⟨p, hp, by rw [Bool.beq_comm]; exact hb⟩
  · rintro ⟨p, hp, hb⟩
    exact ⟨p, hp, by rw [Bool.beq_comm]; exact hb⟩

theorem keySetEq_lookup_left {l1 l2 : List (PyStr × JVal)}
    (h : keySetEq l1 l2 = true) {k : PyStr} (hk : (l1.lookup k).isSome = true) :
    (l2.lookup k).isSome = true := by
  rcases Option.isSome_iff_exists.mp hk with ⟨v, hv⟩
  have hm := lookup_some_mem hv
  rw [keySetEq, Bool.and_eq_true] at h
  have h1 := List.all_eq_true.mp h.1 (k, v) hm
  exact anyKey_iff_lookup_isSome.mp h1

theorem keySetEq_symm (l1 l2 : List (PyStr × JVal)) :
    keySetEq l1 l2 = keySetEq l2 l1 := by
  rw [keySetEq, keySetEq, Bool.and_comm]

theorem keySetEq_refl (l : List (PyStr × JVal)) : keySetEq l l = true := by
  rw [keySetEq, Bool.and_eq_true]
  constructor <;>
    (rw [List.all_eq_true]; intro kv hkv; rw [List.any_eq_true]; exact ⟨kv, hkv, by simp⟩)

theorem keySetEq_trans {l1 l2 l3 : List (PyStr × JVal)}
    (h12 : keySetEq l1 l2 = true) (h23 : keySetEq l2 l3 = true) :
    keySetEq l1 l3 = true := by
  rw [keySetEq, Bool.and_eq_true] at h12 h23 ⊢
  have f12 := List.all_eq_true.mp h12.1
  have b12 := List.all_eq_true.mp h12.2
  have f23 := List.all_eq_true.mp h23.1
  have b23 := List.all_eq_true.mp h23.2
  constructor
  · rw [List.all_eq_true]
    intro kv hkv
    rcases List.any_eq_true.mp (f12 kv hkv) with ⟨p, hp, hb⟩
    rcases List.any_eq_true.mp (f23 p hp) with ⟨q, hq, hb2⟩
    rw [List.any_eq_true]
    refine ⟨q, hq, ?_⟩
    have e1 : p.1 = kv.1 := by simpa using hb
    have e2 : q.1 = p.1 := by simpa using hb2
    simp [e2, e1]
  · rw [List.all_eq_true]
    intro kv hkv
    rcases List.any_eq_true.mp (b23 kv hkv) with ⟨p, hp, hb⟩
    rcases List.any_eq_true.mp (b12 p hp) with ⟨q, hq, hb2⟩
    rw [List.any_eq_true]
    refine ⟨q, hq, ?_⟩
    have e1 : p.1 = kv.1 := by simpa using hb
    have e2 : q.1 = p.1 := by simpa using hb2
    simp [e2, e1]

theorem keySetEq_of_keys_perm : ∀ {l1 l2 : List (PyStr × JVal)},
    (l1.map Prod.fst).Perm (l2.map Prod.fst) → keySetEq l1 l2 = true := by
  intro l1 l2 hp
  rw [keySetEq, Bool.and_eq_true]
  constructor
  · rw [List.all_eq_true]
    intro kv hkv
    have : kv.1 ∈ l2.map Prod.fst := hp.mem_iff.mp (List.mem_map.mpr ⟨kv, hkv, rfl⟩)
    rcases List.mem_map.mp this with ⟨q, hq, he⟩
    rw [List.any_eq_true]
    exact ⟨q, hq, by simp [he]⟩
  · rw [List.all_eq_true]
    intro kv hkv
    have : kv.1 ∈ l1.map Prod.fst := hp.mem_iff.mpr (List.mem_map.mpr ⟨kv, hkv, rfl⟩)
    rcases List.mem_map.mp this with ⟨q, hq, he⟩
    rw [List.any_eq_true]
    exact ⟨q, hq, by simp [he]⟩

theorem all_zip_pointwise {α : Type} {f : α × α → Bool} :
    ∀ {la lb : List α}, la.length = lb.length →
    ((la.zip lb).all f) = true →
    ∀ (i : Nat) (x y : α), la[i]? = some x → lb[i]? = some y → f (x, y) = true := by
  intro la
  induction la with
  | nil => intro lb _ _ i x y hx; cases hx
  | cons a as ih =>
    intro lb hlen hall i x y hx hy
    cases lb with
    | nil => cases hy
    | cons b bs =>
      rw [List.zip_cons_cons, List.all_cons, Bool.and_eq_true] at hall
      cases i with
      | zero =>
        simp only [List.getElem?_cons_zero, Option.some_inj] at hx hy
        subst hx; subst hy
        exact hall.1
      | succ j =>
        rw [List.getElem?_cons_succ] at hx hy
        exact ih (by simpa using hlen) hall.2 j x y hx hy

theorem zip_self_all {α : Type} {f : α × α → Bool} :
    ∀ {s : List α}, (∀ x ∈ s, f (x, x) = true) → ((s.zip s).all f) = true := by
  intro s
  induction s with
  | nil => intro _; rfl
  | cons a as ih =>
    intro h
    rw [List.zip_cons_cons, List.all_cons, Bool.and_eq_true]
    exact ⟨h a (List.mem_cons_self _ _), ih (fun x hx => h x (List.mem_cons_of_mem _ hx))⟩

/-- Pointwise relatedness of index-aligned lists gives `Multiset.Rel`. -/
theorem rel_of_pointwise {R : JVal → JVal → Prop} :
    ∀ {la lb : List JVal}, la.length = lb.length →
    (∀ (i : Nat) (x y : JVal), la[i]? = some x → lb[i]? = some y → R x y) →
    Multiset.Rel R ↑la ↑lb := by
  intro la
  induction la with
  | nil =>
    intro lb hlen _
    cases lb with
    | nil => exact Multiset.Rel.zero
    | cons b bs => cases hlen
  | cons a as ih =>
    intro lb hlen hpt
    cases lb with
    | nil => cases hlen
    | cons b bs =>
      have h0 : R a b := hpt 0 a b (by simp) (by simp)
      have htail := ih (by simpa using hlen)
        (fun i x y hx hy => hpt (i + 1) x y (by simpa using hx) (by simpa using hy))
      exact Multiset.Rel.cons h0 htail

/-- `Multiset.Rel` between list coercions yields an index-aligned pointwise
pairing together with a permutation. -/
theorem pointwise_of_rel {R : JVal → JVal → Prop} :
    ∀ (la lc : List JVal), Multiset.Rel R ↑la ↑lc →
    ∃ lb : List JVal, la.length = lb.length ∧
      (∀ (i : Nat) (x y : JVal), la[i]? = some x → lb[i]? = some y → R x y) ∧ lb.Perm lc := by
  intro la
  induction la with
  | nil =>
    intro lc h
    have : (↑lc : Multiset JVal) = 0 := by
      have := Multiset.rel_zero_left.mp h
      exact this
    have hnil : lc = [] := by
      simpa using this
    subst hnil
    exact ⟨[], rfl, fun i x y hx _ => by simp at hx, List.Perm.refl []⟩
  | cons a as ih =>
    intro lc h
    have h2 : Multiset.Rel R (a ::ₘ (↑as : Multiset JVal)) ↑lc := by
      rw [Multiset.cons_coe]
      exact h
    rcases Multiset.rel_cons_left.mp h2 with ⟨b, bs, hab, hrel, hbs⟩
    rcases Quotient.exists_rep bs with ⟨lbs, hlbs⟩
    subst hlbs
    rcases ih lbs hrel with ⟨mid, hlen, hpt, hperm⟩
    refine ⟨b :: mid, by simpa using hlen, ?_, ?_⟩
    · intro i x y hx hy
      cases i with
      | zero =>
        simp only [List.getElem?_cons_zero, Option.some_inj] at hx hy
        subst hx; subst hy
        exact hab
      | succ j =>
        rw [List.getElem?_cons_succ] at hx hy
        exact hpt j x y hx hy
    · have hc : (↑lc : Multiset JVal) = ↑(b :: lbs) := by
        rw [hbs]
        rfl
      have hpc : lc.Perm (b :: lbs) := Multiset.coe_eq_coe.mp hc
      exact ((hperm.cons b).trans hpc.symm)

theorem jsize_pos (a : JVal) : 1 ≤ jsize a := by
  cases a <;> rw [jsize] <;> omega

/-- Python's scalar equality classes: booleans collapse onto integers. -/
def canonScalar : JVal → JVal
  | .jbool b => .jint (if b then 1 else 0)
  | v => v

theorem pyPrimEq_iff_canon (a b : JVal) :
    pyPrimEq a b = true ↔
      (IsPrimB a = true ∧ IsPrimB b = true ∧ canonScalar a = canonScalar b) := by
  cases a <;> cases b <;>
    simp [pyPrimEq, canonScalar, IsPrimB, beq_iff_eq]
  rename_i x y
  cases x <;> cases y <;> simp

theorem pyPrimEq_refl {a : JVal} (h : IsPrimB a = true) : pyPrimEq a a = true :=
  (pyPrimEq_iff_canon a a).mpr ⟨h, h, rfl⟩

theorem pyPrimEq_symm (a b : JVal) : pyPrimEq a b = pyPrimEq b a := by
  apply Bool.coe_iff_coe.mp
  constructor
  · intro h
    rcases (pyPrimEq_iff_canon a b).mp h with ⟨ha, hb, hc⟩
    exact (pyPrimEq_iff_canon b a).mpr ⟨hb, ha, hc.symm⟩
  · intro h
    rcases (pyPrimEq_iff_canon b a).mp h with ⟨ha, hb, hc⟩
    exact (pyPrimEq_iff_canon a b).mpr ⟨hb, ha, hc.symm⟩

theorem pyPrimEq_trans {a b c : JVal} (h1 : pyPrimEq a b = true)
    (h2 : pyPrimEq b c = true) : pyPrimEq a c = true := by
  rcases (pyPrimEq_iff_canon a b).mp h1 with ⟨ha, _, hc1⟩
  rcases (pyPrimEq_iff_canon b c).mp h2 with ⟨_, hcc, hc2⟩
  exact (pyPrimEq_iff_canon a c).mpr ⟨ha, hcc, hc1.trans hc2⟩

theorem jeqFuel_dict (f : Nat) (l1 l2 : JEntries) :
    jeqFuel (f + 1) (.jdict l1) (.jdict l2) =
      (keySetEq l1.toList l2.toList &&
        l1.toList.all (fun kv =>
          match l2.toList.lookup kv.1 with
          | some w => jeqFuel f kv.2 w
          | none => false)) := rfl

theorem jeqFuel_list (f : Nat) (l1 l2 : JItems) :
    jeqFuel (f + 1) (.jlist l1) (.jlist l2) =
      (decide (l1.toList.length = l2.toList.length) &&
        ((sortByRepr l1.toList).zip (sortByRepr l2.toList)).all
          (fun p => jeqFuel f p.1 p.2)) := rfl

theorem zip_all_flip {f1 f2 : JVal × JVal → Bool} :
    ∀ (u v : List JVal), (∀ x ∈ u, ∀ y ∈ v, f1 (x, y) = f2 (y, x)) →
    ((u.zip v).all f1) = ((v.zip u).all f2) := by
  intro u
  induction u with
  | nil => intro v _; cases v <;> rfl
  | cons x xs ih =>
    intro v h
    cases v with
    | nil => rfl
    | cons y ys =>
      rw [List.zip_cons_cons, List.zip_cons_cons, List.all_cons, List.all_cons]
      rw [h x (List.mem_cons_self _ _) y (List.mem_cons_self _ _),
        ih ys (fun a ha b hb => h a (List.mem_cons_of_mem _ ha) b (List.mem_cons_of_mem _ hb))]

theorem jeqFuel_refl : ∀ (n : Nat) (a : JVal) (f : Nat), jsize a ≤ n → jsize a ≤ f →
    WFJ a → jeqFuel f a a = true := by
  intro n
  induction n with
  | zero =>
    intro a f h1 _ _
    have := jsize_pos a
    omega
  | succ n ih =>
    intro a f h1 h2 hw
    obtain ⟨g, rfl⟩ : ∃ g, f = g + 1 := ⟨f - 1, by have := jsize_pos a; omega⟩
    cases a with
    | jnull => rfl
    | jbool b => simp [jeqFuel, pyPrimEq]
    | jint m => simp [jeqFuel, pyPrimEq]
    | jstr s => simp [jeqFuel, pyPrimEq]
    | jlist l =>
      rw [jeqFuel_list, Bool.and_eq_true]
      refine ⟨by simp, ?_⟩
      apply zip_self_all
      intro x hx
      have hx2 : x ∈ l.toList := (List.perm_insertionSort _ _).mem_iff.mp hx
      have hs := jsize_lt_of_mem_items hx2
      have hsz : jsize (JVal.jlist l) = 1 + jsizeItems l := by rw [jsize]
      cases hw with
      | jlist hall => exact ih x g (by omega) (by omega) (hall x hx2)
    | jdict l =>
      rw [jeqFuel_dict, Bool.and_eq_true]
      cases hw with
      | jdict hnd hall =>
        refine ⟨keySetEq_refl _, ?_⟩
        rw [List.all_eq_true]
        intro kv hkv
        have hlk : l.toList.lookup kv.1 = some kv.2 :=
          mem_lookup_of_nodup (by simpa using hkv) hnd
        have hs := jsize_lt_of_mem_entries hkv
        have hsz : jsize (JVal.jdict l) = 1 + jsizeEntries l := by rw [jsize]
        have hrec : jeqFuel g kv.2 kv.2 = true :=
          ih kv.2 g (by omega) (by omega) (hall kv hkv)
        rw [hlk]
        exact hrec

theorem jeqFuel_symm : ∀ (n : Nat) (a b : JVal) (f1 f2 : Nat),
    jsize a + jsize b ≤ n → jsize a ≤ f1 → jsize b ≤ f2 → WFJ a → WFJ b →
    jeqFuel f1 a b = jeqFuel f2 b a := by
  intro n
  induction n with
  | zero =>
    intro a b f1 f2 h1 _ _ _ _
    have := jsize_pos a
    have := jsize_pos b
    omega
  | succ n ih =>
    intro a b f1 f2 hn ha hb hwa hwb
    obtain ⟨g1, rfl⟩ : ∃ g, f1 = g + 1 := ⟨f1 - 1, by have := jsize_pos a; omega⟩
    obtain ⟨g2, rfl⟩ : ∃ g, f2 = g + 1 := ⟨f2 - 1, by have := jsize_pos b; omega⟩
    cases a with
    | jlist l1 =>
      cases b with
      | jlist l2 =>
        rw [jeqFuel_list, jeqFuel_list]
        have hs1 : jsize (JVal.jlist l1) = 1 + jsizeItems l1 := by rw [jsize]
        have hs2 : jsize (JVal.jlist l2) = 1 + jsizeItems l2 := by rw [jsize]
        by_cases hl : l1.toList.length = l2.toList.length
        · rw [decide_eq_true hl, decide_eq_true hl.symm, Bool.true_and, Bool.true_and]
          apply zip_all_flip
          intro x hx y hy
          have hx2 : x ∈ l1.toList := (List.perm_insertionSort _ _).mem_iff.mp hx
          have hy2 : y ∈ l2.toList := (List.perm_insertionSort _ _).mem_iff.mp hy
          have hsx := jsize_lt_of_mem_items hx2
          have hsy := jsize_lt_of_mem_items hy2
          cases hwa with
          | jlist hall1 =>
            cases hwb with
            | jlist hall2 =>
              exact ih x y g1 g2 (by omega) (by omega) (by omega)
                (hall1 x hx2) (hall2 y hy2)
        · rw [decide_eq_false hl, decide_eq_false (fun h => hl h.symm),
            Bool.false_and, Bool.false_and]
      | jnull => exact pyPrimEq_symm _ _
      | jbool x => exact pyPrimEq_symm _ _
      | jint x => exact pyPrimEq_symm _ _
      | jstr x => exact pyPrimEq_symm _ _
      | jdict l2 => exact pyPrimEq_symm _ _
    | jdict l1 =>
      cases b with
      | jdict l2 =>
        rw [jeqFuel_dict, jeqFuel_dict]
        have hs1 : jsize (JVal.jdict l1) = 1 + jsizeEntries l1 := by rw [jsize]
        have hs2 : jsize (JVal.jdict l2) = 1 + jsizeEntries l2 := by rw [jsize]
        cases hwa with
        | jdict hnd1 hall1 =>
          cases hwb with
          | jdict hnd2 hall2 =>
            by_cases hk : keySetEq l1.toList l2.toList = true
            · have hk2 : keySetEq l2.toList l1.toList = true := by
                rw [keySetEq_symm]
                exact hk
              rw [hk, hk2, Bool.true_and, Bool.true_and]
              apply Bool.coe_iff_coe.mp
              rw [List.all_eq_true, List.all_eq_true]
              constructor
              · intro h kv hkv
                have hlk2 : l2.toList.lookup kv.1 = some kv.2 :=
                  mem_lookup_of_nodup (by simpa using hkv) hnd2
                have hsome := keySetEq_lookup_left hk2 (by rw [hlk2]; rfl)
                rcases Option.isSome_iff_exists.mp hsome with ⟨v, hv⟩
                have hmem1 : (kv.1, v) ∈ l1.toList := lookup_some_mem hv
                have h1 := h (kv.1, v) hmem1
                have h1b : jeqFuel g1 v kv.2 = true := by
                  rw [show l2.toList.lookup (kv.1, v).1 = some kv.2 from hlk2] at h1
                  exact h1
                rw [hv]
                have hsv : jsize v < jsizeEntries l1 := jsize_lt_of_mem_entries hmem1
                have hsw : jsize kv.2 < jsizeEntries l2 := jsize_lt_of_mem_entries hkv
                have hsymm : jeqFuel g2 kv.2 v = jeqFuel g1 v kv.2 :=
                  ih kv.2 v g2 g1 (by omega) (by omega) (by omega)
                    (hall2 kv hkv) (hall1 (kv.1, v) hmem1)
                show jeqFuel g2 kv.2 v = true
                rw [hsymm]
                exact h1b
              · intro h kv hkv
                have hlk1 : l1.toList.lookup kv.1 = some kv.2 :=
                  mem_lookup_of_nodup (by simpa using hkv) hnd1
                have hsome := keySetEq_lookup_left hk (by rw [hlk1]; rfl)
                rcases Option.isSome_iff_exists.mp hsome with ⟨v, hv⟩
                have hmem2 : (kv.1, v) ∈ l2.toList := lookup_some_mem hv
                have h1 := h (kv.1, v) hmem2
                have h1b : jeqFuel g2 v kv.2 = true := by
                  rw [show l1.toList.lookup (kv.1, v).1 = some kv.2 from hlk1] at h1
                  exact h1
                rw [hv]
                have hsv : jsize v < jsizeEntries l2 := jsize_lt_of_mem_entries hmem2
                have hsw : jsize kv.2 < jsizeEntries l1 := jsize_lt_of_mem_entries hkv
                have hsymm : jeqFuel g1 kv.2 v = jeqFuel g2 v kv.2 :=
                  ih kv.2 v g1 g2 (by omega) (by omega) (by omega)
                    (hall1 kv hkv) (hall2 (kv.1, v) hmem2)
                show jeqFuel g1 kv.2 v = true
                rw [hsymm]
                exact h1b
            · have hk2 : ¬(keySetEq l2.toList l1.toList = true) := by
                rw [keySetEq_symm]
                exact hk
              rw [Bool.eq_false_iff.mpr hk, Bool.eq_false_iff.mpr hk2,
                Bool.false_and, Bool.false_and]
      | jnull => exact pyPrimEq_symm _ _
      | jbool x => exact pyPrimEq_symm _ _
      | jint x => exact pyPrimEq_symm _ _
      | jstr x => exact pyPrimEq_symm _ _
      | jlist l2 => exact pyPrimEq_symm _ _
    | jnull => cases b <;> exact pyPrimEq_symm _ _
    | jbool x => cases b <;> exact pyPrimEq_symm _ _
    | jint x => cases b <;> exact pyPrimEq_symm _ _
    | jstr x => cases b <;> exact pyPrimEq_symm _ _

/-- C10.  `are_json_values_equal` is symmetric on JSON-like trees. -/
theorem claim_C10 (a b : JVal) (ha : WFJ a) (hb : WFJ b) :
    are_json_values_equal a b = are_json_values_equal b a :=
  jeqFuel_symm (jsize a + jsize b) a b (jsize a) (jsize b)
    (Nat.le_refl _) (Nat.le_refl _) (Nat.le_refl _) ha hb

/-- Witness for C10 at a dict compared against a key-reordered dict. -/
theorem claim_C10_witness :
    are_json_values_equal
        (.jdict (JEntries.ofList [("a".toList, .jint 1), ("b".toList, .jbool true)]))
        (.jdict (JEntries.ofList [("b".toList, .jbool true), ("a".toList, .jint 1)])) =
      are_json_values_equal
        (.jdict (JEntries.ofList [("b".toList, .jbool true), ("a".toList, .jint 1)]))
        (.jdict (JEntries.ofList [("a".toList, .jint 1), ("b".toList, .jbool true)])) := by
  apply claim_C10
  · apply WFJ.jdict
    · decide
    · intro kv hkv
      rcases List.mem_cons.mp hkv with he | hm
      · rw [he]
        exact WFJ.jint 1
      · rcases List.mem_cons.mp hm with he2 | hm2
        · rw [he2]
          exact WFJ.jbool true
        · cases hm2
  · apply WFJ.jdict
    · decide
    · intro kv hkv
      rcases List.mem_cons.mp hkv with he | hm
      · rw [he]
        exact WFJ.jbool true
      · rcases List.mem_cons.mp hm with he2 | hm2
        · rw [he2]
          exact WFJ.jint 1
        · cases hm2

theorem itemsToList_ofList : ∀ (l : List JVal), (JItems.ofList l).toList = l
  | [] => rfl
  | v :: vs => by rw [JItems.ofList, JItems.toList, itemsToList_ofList vs]

theorem entriesToList_ofList : ∀ (l : List (PyStr × JVal)), (JEntries.ofList l).toList = l
  | [] => rfl
  | (k, v) :: kvs => by rw [JEntries.ofList, JEntries.toList, entriesToList_ofList kvs]

theorem map_fst_eq_of_pointwise : ∀ {l m : List (PyStr × JVal)}, l.length = m.length →
    (∀ (i : Nat) (p q : PyStr × JVal), l[i]? = some p → m[i]? = some q → p.1 = q.1) →
    l.map Prod.fst = m.map Prod.fst := by
  intro l
  induction l with
  | nil =>
    intro m hlen _
    cases m with
    | nil => rfl
    | cons b bs => cases hlen
  | cons a as ih =>
    intro m hlen hpt
    cases m with
    | nil => cases hlen
    | cons b bs =>
      rw [List.map_cons, List.map_cons,
        hpt 0 a b (by simp) (by simp),
        ih (by simpa using hlen)
          (fun i p q hp hq => hpt (i + 1) p q (by simpa using hp) (by simpa using hq))]

theorem pointwise_mem_left {α β : Type} {R : α → β → Prop} : ∀ {l : List α} {m : List β},
    l.length = m.length →
    (∀ (i : Nat) (x : α) (y : β), l[i]? = some x → m[i]? = some y → R x y) →
    ∀ {x : α}, x ∈ l → ∃ y ∈ m, R x y := by
  intro l
  induction l with
  | nil => intro m _ _ x hx; cases hx
  | cons a as ih =>
    intro m hlen hpt x hx
    cases m with
    | nil => cases hlen
    | cons b bs =>
      rcases List.mem_cons.mp hx with he | hm
      · subst he
        exact ⟨b, List.mem_cons_self _ _, hpt 0 x b (by simp) (by simp)⟩
      · rcases ih (by simpa using hlen)
          (fun i p q hp hq => hpt (i + 1) p q (by simpa using hp) (by simpa using hq)) hm
          with ⟨y, hy, hr⟩
        exact ⟨y, List.mem_cons_of_mem _ hy, hr⟩

/-- Equality up to reordering of dict keys at nodes that do not lie inside
any list: either the two trees are identical, or both are dicts whose
entries match up to a permutation, with keys equal and values again related.
Inside lists only the `refl` constructor applies, so list elements must be
identical. -/
inductive KeyPermEq : JVal → JVal → Prop where
  | refl (a : JVal) : KeyPermEq a a
  | jdict (e1 e2 : JEntries) (m : List (PyStr × JVal)) :
      e1.toList.length = m.length →
      (∀ (i : Nat) (p q : PyStr × JVal), e1.toList[i]? = some p → m[i]? = some q →
        p.1 = q.1) →
      (∀ (i : Nat) (p q : PyStr × JVal), e1.toList[i]? = some p → m[i]? = some q →
        KeyPermEq p.2 q.2) →
      m.Perm e2.toList → KeyPermEq (.jdict e1) (.jdict e2)

theorem keyPermEq_jeq : ∀ (n : Nat) (a b : JVal) (f : Nat), jsize a ≤ n → jsize a ≤ f →
    KeyPermEq a b → WFJ a → WFJ b → jeqFuel f a b = true := by
  intro n
  induction n with
  | zero =>
    intro a b f h1 _ _ _ _
    have := jsize_pos a
    omega
  | succ n ih =>
    intro a b f h1 h2 hk hwa hwb
    cases hk with
    | refl a => exact jeqFuel_refl (n + 1) a f h1 h2 hwa
    | jdict e1 e2 m hlen hptk hptv hperm =>
      obtain ⟨g, rfl⟩ : ∃ g, f = g + 1 := ⟨f - 1, by have := jsize_pos (JVal.jdict e1); omega⟩
      rw [jeqFuel_dict, Bool.and_eq_true]
      have hs1 : jsize (JVal.jdict e1) = 1 + jsizeEntries e1 := by rw [jsize]
      cases hwa with
      | jdict hnd1 hall1 =>
        cases hwb with
        | jdict hnd2 hall2 =>
          constructor
          · have hkeys : e1.toList.map Prod.fst = m.map Prod.fst :=
              map_fst_eq_of_pointwise hlen hptk
            exact keySetEq_of_keys_perm (by rw [hkeys]; exact hperm.map Prod.fst)
          · rw [List.all_eq_true]
            intro kv hkv
            rcases pointwise_mem_left hlen
              (fun i p q hp hq => And.intro (hptk i p q hp hq) (hptv i p q hp hq))
              hkv with ⟨q, hqm, hq1, hqk⟩
            have hq2 : q ∈ e2.toList := hperm.mem_iff.mp hqm
            have hlk : e2.toList.lookup kv.1 = some q.2 := by
              rw [hq1]
              exact mem_lookup_of_nodup (by simpa using hq2) hnd2
            rw [hlk]
            have hsv : jsize kv.2 < jsizeEntries e1 := jsize_lt_of_mem_entries hkv
            show jeqFuel g kv.2 q.2 = true
            exact ih kv.2 q.2 g (by omega) (by omega) hqk (hall1 kv hkv) (hall2 q hq2)

theorem pyPrimEq_jlist_left (l : JItems) (c : JVal) : pyPrimEq (.jlist l) c = false := by
  cases c <;> rfl

theorem pyPrimEq_jdict_left (e : JEntries) (c : JVal) : pyPrimEq (.jdict e) c = false := by
  cases c <;> rfl

theorem pyPrimEq_jlist_right (l : JItems) (a : JVal) : pyPrimEq a (.jlist l) = false := by
  cases a <;> rfl

theorem pyPrimEq_jdict_right (e : JEntries) (a : JVal) : pyPrimEq a (.jdict e) = false := by
  cases a <;> rfl

/-- The coarsest relation `are_json_values_equal` can certify: scalars are
related when Python `==` accepts them; lists are related when some
index-aligned pointwise-related copy of the left list is a permutation of
the right list; dicts are related when their key sets agree and values
agree under every common key lookup. -/
inductive DeepEquiv : JVal → JVal → Prop where
  | prim (a b : JVal) : pyPrimEq a b = true → DeepEquiv a b
  | jlist (l1 l2 : JItems) (m : List JVal) :
      l1.toList.length = m.length →
      (∀ (i : Nat) (x y : JVal), l1.toList[i]? = some x → m[i]? = some y → DeepEquiv x y) →
      m.Perm l2.toList → DeepEquiv (.jlist l1) (.jlist l2)
  | jdict (e1 e2 : JEntries) :
      keySetEq e1.toList e2.toList = true →
      (∀ (k : PyStr) (v w : JVal), e1.toList.lookup k = some v →
        e2.toList.lookup k = some w → DeepEquiv v w) →
      DeepEquiv (.jdict e1) (.jdict e2)

/-- A `DeepEquiv` between two lists yields a `Multiset.Rel` between their
member multisets (and equal lengths). -/
theorem deepEquiv_rel {l1 l2 : JItems} (h : DeepEquiv (.jlist l1) (.jlist l2)) :
    l1.toList.length = l2.toList.length ∧
      Multiset.Rel DeepEquiv ↑l1.toList ↑l2.toList := by
  cases h with
  | prim a b hp =>
    rw [pyPrimEq_jlist_left] at hp
    exact Bool.noConfusion hp
  | jlist _ _ m hlen hpt hperm =>
    have hrel : Multiset.Rel DeepEquiv ↑l1.toList ↑m := rel_of_pointwise hlen hpt
    have hme : (↑m : Multiset JVal) = ↑l2.toList := Multiset.coe_eq_coe.mpr hperm
    refine ⟨by rw [hlen, hperm.length_eq], ?_⟩
    rw [← hme]
    exact hrel

theorem deepEquiv_refl_n : ∀ (n : Nat) (a : JVal), jsize a ≤ n → DeepEquiv a a := by
  intro n
  induction n with
  | zero =>
    intro a h
    have := jsize_pos a
    omega
  | succ n ih =>
    intro a h
    cases a with
    | jnull => exact .prim _ _ rfl
    | jbool b => exact .prim _ _ (by simp [pyPrimEq])
    | jint m => exact .prim _ _ (by simp [pyPrimEq])
    | jstr s => exact .prim _ _ (by simp [pyPrimEq])
    | jlist l =>
      refine .jlist l l l.toList rfl ?_ (List.Perm.refl _)
      intro i x y hx hy
      have hxy : x = y := by
        rw [hx] at hy
        exact Option.some_inj.mp hy
      subst hxy
      have hmem : x ∈ l.toList := List.getElem?_mem hx
      have hlt := jsize_lt_of_mem_items hmem
      have hsz : jsize (JVal.jlist l) = 1 + jsizeItems l := by rw [jsize]
      exact ih x (by omega)
    | jdict e =>
      refine .jdict e e (keySetEq_refl _) ?_
      intro k v w h1 h2
      have hvw : v = w := by
        rw [h1] at h2
        exact Option.some_inj.mp h2
      subst hvw
      have hmem : (k, v) ∈ e.toList := lookup_some_mem h1
      have hlt : jsize v < jsizeEntries e := jsize_lt_of_mem_entries hmem
      have hsz : jsize (JVal.jdict e) = 1 + jsizeEntries e := by rw [jsize]
      exact ih v (by omega)

theorem deepEquiv_refl (a : JVal) : DeepEquiv a a :=
  deepEquiv_refl_n (jsize a) a (Nat.le_refl _)

theorem deepEquiv_symm : ∀ {a b : JVal}, DeepEquiv a b → DeepEquiv b a := by
  intro a b h
  induction h with
  | prim a b hp =>
    refine .prim _ _ ?_
    rw [pyPrimEq_symm]
    exact hp
  | jlist l1 l2 m hlen hpt hperm ih =>
    have hrel : Multiset.Rel DeepEquiv ↑m ↑l1.toList :=
      rel_of_pointwise hlen.symm (fun i x y hx hy => ih i y x hy hx)
    have hrel2 : Multiset.Rel DeepEquiv ↑l2.toList ↑l1.toList := by
      rw [← Multiset.coe_eq_coe.mpr hperm]
      exact hrel
    rcases pointwise_of_rel _ _ hrel2 with ⟨m2, hlen2, hpt2, hperm2⟩
    exact .jlist l2 l1 m2 hlen2 hpt2 hperm2
  | jdict e1 e2 hks hlk ih =>
    refine .jdict e2 e1 ?_ (fun k v w h1 h2 => ih k w v h2 h1)
    rw [keySetEq_symm]
    exact hks

/-- Compose two multiset relations through a pointwise composition rule
restricted to the members involved. -/
theorem rel_trans_cond {R1 R2 R3 : JVal → JVal → Prop} :
    ∀ {s t : Multiset JVal}, Multiset.Rel R1 s t →
    ∀ {u : Multiset JVal}, Multiset.Rel R2 t u →
    (∀ a b c, a ∈ s → b ∈ t → c ∈ u → R1 a b → R2 b c → R3 a c) →
    Multiset.Rel R3 s u := by
  intro s t h1
  induction h1 with
  | zero =>
    intro u h2 _
    rw [Multiset.rel_zero_left] at h2
    subst h2
    exact Multiset.Rel.zero
  | cons hab h ih =>
    rename_i a b s0 t0
    intro u h2 hcond
    rcases Multiset.rel_cons_left.mp h2 with ⟨c, u0, hbc, hrel, hu⟩
    subst hu
    refine Multiset.Rel.cons ?_ ?_
    · exact hcond a b c (Multiset.mem_cons_self _ _) (Multiset.mem_cons_self _ _)
        (Multiset.mem_cons_self _ _) hab hbc
    · exact ih hrel (fun x y z hx hy hz r1 r2 =>
        hcond x y z (Multiset.mem_cons_of_mem hx) (Multiset.mem_cons_of_mem hy)
          (Multiset.mem_cons_of_mem hz) r1 r2)

theorem deepEquiv_trans_n : ∀ (n : Nat) (a b c : JVal),
    jsize a + jsize b + jsize c ≤ n →
    DeepEquiv a b → DeepEquiv b c → DeepEquiv a c := by
  intro n
  induction n with
  | zero =>
    intro a b c h _ _
    have := jsize_pos a
    have := jsize_pos b
    have := jsize_pos c
    omega
  | succ n ih =>
    intro a b c hn h1 h2
    cases h1 with
    | prim a b hp =>
      have hb : IsPrimB b = true := ((pyPrimEq_iff_canon a b).mp hp).2.1
      cases h2 with
      | prim _ _ hq => exact .prim _ _ (pyPrimEq_trans hp hq)
      | jlist l2 l3 m hlen hpt hperm => exact Bool.noConfusion (show false = true from hb)
      | jdict e2 e3 hks hlk => exact Bool.noConfusion (show false = true from hb)
    | jlist l1 l2 m hlen hpt hperm =>
      cases h2 with
      | prim _ _ hp =>
        rw [pyPrimEq_jlist_left] at hp
        exact Bool.noConfusion hp
      | jlist _ l3 m2 hlen2 hpt2 hperm2 =>
        have hr1 : Multiset.Rel DeepEquiv ↑l1.toList ↑l2.toList := by
          rw [← Multiset.coe_eq_coe.mpr hperm]
          exact rel_of_pointwise hlen hpt
        have hr2 : Multiset.Rel DeepEquiv ↑l2.toList ↑l3.toList := by
          rw [← Multiset.coe_eq_coe.mpr hperm2]
          exact rel_of_pointwise hlen2 hpt2
        have hs1 : jsize (JVal.jlist l1) = 1 + jsizeItems l1 := by rw [jsize]
        have hs2 : jsize (JVal.jlist l2) = 1 + jsizeItems l2 := by rw [jsize]
        have hs3 : jsize (JVal.jlist l3) = 1 + jsizeItems l3 := by rw [jsize]
        have hr3 : Multiset.Rel DeepEquiv ↑l1.toList ↑l3.toList := by
          refine rel_trans_cond hr1 hr2 ?_
          intro x y z hx hy hz r1 r2
          have hx2 := jsize_lt_of_mem_items (Multiset.mem_coe.mp hx)
          have hy2 := jsize_lt_of_mem_items (Multiset.mem_coe.mp hy)
          have hz2 := jsize_lt_of_mem_items (Multiset.mem_coe.mp hz)
          exact ih x y z (by omega) r1 r2
        rcases pointwise_of_rel _ _ hr3 with ⟨m3, hl3, hp3, hperm3⟩
        exact .jlist _ _ m3 hl3 hp3 hperm3
    | jdict e1 e2 hks hlk =>
      cases h2 with
      | prim _ _ hp =>
        rw [pyPrimEq_jdict_left] at hp
        exact Bool.noConfusion hp
      | jdict _ e3 hks2 hlk2 =>
        refine .jdict _ _ (keySetEq_trans hks hks2) ?_
        intro k v w h1k h3k
        have h2some : (e2.toList.lookup k).isSome = true :=
          keySetEq_lookup_left hks (by rw [h1k]; rfl)
        rcases Option.isSome_iff_exists.mp h2some with ⟨u, hu⟩
        have d1 : DeepEquiv v u := hlk k v u h1k hu
        have d2 : DeepEquiv u w := hlk2 k u w hu h3k
        have s1 : jsize v < jsizeEntries e1 := jsize_lt_of_mem_entries (lookup_some_mem h1k)
        have s2 : jsize u < jsizeEntries e2 := jsize_lt_of_mem_entries (lookup_some_mem hu)
        have s3 : jsize w < jsizeEntries e3 := jsize_lt_of_mem_entries (lookup_some_mem h3k)
        have hs1 : jsize (JVal.jdict e1) = 1 + jsizeEntries e1 := by rw [jsize]
        have hs2 : jsize (JVal.jdict e2) = 1 + jsizeEntries e2 := by rw [jsize]
        have hs3 : jsize (JVal.jdict e3) = 1 + jsizeEntries e3 := by rw [jsize]
        exact ih v u w (by omega) d1 d2

theorem deepEquiv_trans {a b c : JVal} (h1 : DeepEquiv a b) (h2 : DeepEquiv b c) :
    DeepEquiv a c :=
  deepEquiv_trans_n (jsize a + jsize b + jsize c) a b c (Nat.le_refl _) h1 h2

theorem deepEquiv_equivalence : Equivalence DeepEquiv :=
  ⟨deepEquiv_refl, deepEquiv_symm, deepEquiv_trans⟩

/-- Two trees that differ in exactly one scalar value: identical everywhere
except along one path whose endpoint holds scalars that Python `==`
rejects. -/
inductive ScalarDiff : JVal → JVal → Prop where
  | prim (a b : JVal) : IsPrimB a = true → IsPrimB b = true → pyPrimEq a b = false →
      ScalarDiff a b
  | jlist (pre post : List JVal) (x y : JVal) : ScalarDiff x y →
      ScalarDiff (.jlist (JItems.ofList (pre ++ x :: post)))
        (.jlist (JItems.ofList (pre ++ y :: post)))
  | jdict (pre post : List (PyStr × JVal)) (k : PyStr) (x y : JVal) : ScalarDiff x y →
      ScalarDiff (.jdict (JEntries.ofList (pre ++ (k, x) :: post)))
        (.jdict (JEntries.ofList (pre ++ (k, y) :: post)))

theorem lookup_append_key_absent : ∀ (pre : List (PyStr × JVal)) (k : PyStr) (x : JVal)
    (post : List (PyStr × JVal)), k ∉ pre.map Prod.fst →
    (pre ++ (k, x) :: post).lookup k = some x := by
  intro pre
  induction pre with
  | nil =>
    intro k x post _
    rw [List.nil_append, List.lookup_cons]
    rw [show (k == k) = true from by simp]
  | cons p tl ih =>
    intro k x post hk
    obtain ⟨k1, v1⟩ := p
    rw [List.cons_append, List.lookup_cons]
    have hne : (k == k1) = false := by
      rw [Bool.eq_false_iff]
      intro hbe
      have : k = k1 := by simpa using hbe
      subst this
      exact hk (by rw [List.map_cons]; exact List.mem_cons_self _ _)
    rw [hne]
    exact ih k x post (fun h => hk (List.mem_cons_of_mem _ h))

/-- Mapping a `DeepEquiv`-respecting function across `Multiset.Rel DeepEquiv`
multisets yields equal images. -/
theorem rel_map_quot {s t : Multiset JVal} (h : Multiset.Rel DeepEquiv s t) :
    s.map (Quot.mk DeepEquiv) = t.map (Quot.mk DeepEquiv) := by
  rw [← Multiset.rel_eq, Multiset.rel_map]
  exact h.mono (fun a _ b _ hr => Quot.sound hr)

/-- The coe-level form of the cancellation step: if the two lists around the
distinguished position agree, the distinguished elements are `DeepEquiv`. -/
theorem deepEquiv_of_middle_rel {pre post : List JVal} {x y : JVal}
    (h : Multiset.Rel DeepEquiv ↑(pre ++ x :: post) ↑(pre ++ y :: post)) :
    DeepEquiv x y := by
  have hq := rel_map_quot h
  rw [Multiset.map_coe, Multiset.map_coe, List.map_append, List.map_append,
    List.map_cons, List.map_cons] at hq
  have hx : (↑(pre.map (Quot.mk DeepEquiv) ++
      Quot.mk DeepEquiv x :: post.map (Quot.mk DeepEquiv)) : Multiset (Quot DeepEquiv)) =
      Quot.mk DeepEquiv x ::ₘ
        ↑(pre.map (Quot.mk DeepEquiv) ++ post.map (Quot.mk DeepEquiv)) := by
    rw [Multiset.coe_eq_coe.mpr List.perm_middle]
    rfl
  have hy : (↑(pre.map (Quot.mk DeepEquiv) ++
      Quot.mk DeepEquiv y :: post.map (Quot.mk DeepEquiv)) : Multiset (Quot DeepEquiv)) =
      Quot.mk DeepEquiv y ::ₘ
        ↑(pre.map (Quot.mk DeepEquiv) ++ post.map (Quot.mk DeepEquiv)) := by
    rw [Multiset.coe_eq_coe.mpr List.perm_middle]
    rfl
  rw [hx, hy] at hq
  have he : Quot.mk DeepEquiv x = Quot.mk DeepEquiv y :=
    (Multiset.cons_inj_left _).mp hq
  exact deepEquiv_equivalence.eqvGen_iff.mp (Quot.eq.mp he)

theorem scalarDiff_not_deepEquiv : ∀ {a b : JVal}, ScalarDiff a b → WFJ a → WFJ b →
    ¬ DeepEquiv a b := by
  intro a b hs
  induction hs with
  | prim a b hpa hpb hne =>
    intro _ _ hde
    cases hde with
    | prim _ _ hp =>
      rw [hne] at hp
      exact Bool.noConfusion hp
    | jlist l1 l2 m _ _ _ => exact Bool.noConfusion (show false = true from hpa)
    | jdict e1 e2 _ _ => exact Bool.noConfusion (show false = true from hpa)
  | jlist pre post x y hxy ih =>
    intro hwa hwb hde
    have hwx : WFJ x := by
      cases hwa with
      | jlist hall =>
        refine hall x ?_
        rw [itemsToList_ofList]
        exact List.mem_append_right _ (List.mem_cons_self _ _)
    have hwy : WFJ y := by
      cases hwb with
      | jlist hall =>
        refine hall y ?_
        rw [itemsToList_ofList]
        exact List.mem_append_right _ (List.mem_cons_self _ _)
    have hrel := (deepEquiv_rel hde).2
    rw [itemsToList_ofList, itemsToList_ofList] at hrel
    exact ih hwx hwy (deepEquiv_of_middle_rel hrel)
  | jdict pre post k x y hxy ih =>
    intro hwa hwb hde
    have hwx : WFJ x := by
      cases hwa with
      | jdict _ hall =>
        refine hall (k, x) ?_
        rw [entriesToList_ofList]
        exact List.mem_append_right _ (List.mem_cons_self _ _)
    have hwy : WFJ y := by
      cases hwb with
      | jdict _ hall =>
        refine hall (k, y) ?_
        rw [entriesToList_ofList]
        exact List.mem_append_right _ (List.mem_cons_self _ _)
    have hknp : k ∉ pre.map Prod.fst := by
      cases hwa with
      | jdict hnd _ =>
        rw [entriesToList_ofList, List.map_append, List.map_cons] at hnd
        exact fun hm =>
          (List.nodup_cons.mp (List.nodup_middle.mp hnd)).1 (List.mem_append_left _ hm)
    cases hde with
    | prim _ _ hp =>
      rw [pyPrimEq_jdict_left] at hp
      exact Bool.noConfusion hp
    | jdict _ _ hks hlk =>
      have h1 : (JEntries.ofList (pre ++ (k, x) :: post)).toList.lookup k = some x := by
        rw [entriesToList_ofList]
        exact lookup_append_key_absent pre k x post hknp
      have h2 : (JEntries.ofList (pre ++ (k, y) :: post)).toList.lookup k = some y := by
        rw [entriesToList_ofList]
        exact lookup_append_key_absent pre k y post hknp
      exact ih hwx hwy (hlk k x y h1 h2)

/-- Whenever the embedded comparator accepts a pair, the pair is
`DeepEquiv`. -/
theorem jeq_deepEquiv : ∀ (n : Nat) (a b : JVal) (f : Nat), jsize a ≤ n →
    jeqFuel f a b = true → DeepEquiv a b := by
  intro n
  induction n with
  | zero =>
    intro a b f h _
    have := jsize_pos a
    omega
  | succ n ih =>
    intro a b f hs he
    cases f with
    | zero => exact Bool.noConfusion he
    | succ g =>
      cases a with
      | jnull => exact .prim _ _ he
      | jbool x => exact .prim _ _ he
      | jint x => exact .prim _ _ he
      | jstr x => exact .prim _ _ he
      | jlist l1 =>
        cases b with
        | jnull => exact .prim _ _ he
        | jbool x => exact .prim _ _ he
        | jint x => exact .prim _ _ he
        | jstr x => exact .prim _ _ he
        | jdict e2 => exact .prim _ _ he
        | jlist l2 =>
          rw [jeqFuel_list, Bool.and_eq_true] at he
          have hlen : l1.toList.length = l2.toList.length := of_decide_eq_true he.1
          have hslen : (sortByRepr l1.toList).length = (sortByRepr l2.toList).length := by
            rw [sortByRepr, sortByRepr, List.length_insertionSort,
              List.length_insertionSort, hlen]
          have hpt := all_zip_pointwise hslen he.2
          have hs1 : jsize (JVal.jlist l1) = 1 + jsizeItems l1 := by rw [jsize]
          have hrel : Multiset.Rel DeepEquiv ↑(sortByRepr l1.toList)
              ↑(sortByRepr l2.toList) := by
            refine rel_of_pointwise hslen ?_
            intro i x y hx hy
            have hmem : x ∈ l1.toList :=
              (List.perm_insertionSort _ _).mem_iff.mp (List.getElem?_mem hx)
            have hlt := jsize_lt_of_mem_items hmem
            exact ih x y g (by omega) (hpt i x y hx hy)
          have hrel2 : Multiset.Rel DeepEquiv ↑l1.toList ↑l2.toList := by
            rw [← Multiset.coe_eq_coe.mpr (List.perm_insertionSort
                (fun a b => pyLeB (pyRepr a) (pyRepr b) = true) l1.toList),
              ← Multiset.coe_eq_coe.mpr (List.perm_insertionSort
                (fun a b => pyLeB (pyRepr a) (pyRepr b) = true) l2.toList)]
            exact hrel
          rcases pointwise_of_rel _ _ hrel2 with ⟨m, hlm, hpm, hperm⟩
          exact .jlist _ _ m hlm hpm hperm
      | jdict e1 =>
        cases b with
        | jnull => exact .prim _ _ he
        | jbool x => exact .prim _ _ he
        | jint x => exact .prim _ _ he
        | jstr x => exact .prim _ _ he
        | jlist l2 => exact .prim _ _ he
        | jdict e2 =>
          rw [jeqFuel_dict, Bool.and_eq_true] at he
          refine .jdict _ _ he.1 ?_
          intro k v w h1 h2
          have hm : (k, v) ∈ e1.toList := lookup_some_mem h1
          have hall := List.all_eq_true.mp he.2 (k, v) hm
          have h3 : jeqFuel g v w = true := by
            rw [show e2.toList.lookup (k, v).1 = some w from h2] at hall
            exact hall
          have hlt : jsize v < jsizeEntries e1 := jsize_lt_of_mem_entries hm
          have hs1 : jsize (JVal.jdict e1) = 1 + jsizeEntries e1 := by rw [jsize]
          exact ih v w g (by omega) h3

theorem pointwise_self {α : Type} {R : α → α → Prop} {l : List α} (h : ∀ x ∈ l, R x x) :
    ∀ (i : Nat) (x y : α), l[i]? = some x → l[i]? = some y → R x y := by
  intro i x y hx hy
  have hxy : x = y := by
    rw [hx] at hy
    exact Option.some_inj.mp hy
  subst hxy
  exact h x (List.getElem?_mem hx)

theorem pointwise_pair {α β : Type} {R : α → β → Prop} {a1 a2 : α} {b1 b2 : β}
    (h1 : R a1 b1) (h2 : R a2 b2) :
    ∀ (i : Nat) (x : α) (y : β), [a1, a2][i]? = some x → [b1, b2][i]? = some y → R x y := by
  intro i x y hx hy
  cases i with
  | zero =>
    rw [List.getElem?_cons_zero] at hx hy
    rw [← Option.some_inj.mp hx, ← Option.some_inj.mp hy]
    exact h1
  | succ j =>
    cases j with
    | zero =>
      rw [List.getElem?_cons_succ, List.getElem?_cons_zero] at hx hy
      rw [← Option.some_inj.mp hx, ← Option.some_inj.mp hy]
      exact h2
    | succ j2 =>
      rw [List.getElem?_cons_succ, List.getElem?_cons_succ, List.getElem?_nil] at hx
      cases hx

/-- The relation named by the claim: equality up to reordering of dict keys
and of list elements, at every nesting depth.  (This follows the claim's
words, for comparison against the code's comparator.) -/
inductive ReordEq : JVal → JVal → Prop where
  | jnull : ReordEq .jnull .jnull
  | jbool (b : Bool) : ReordEq (.jbool b) (.jbool b)
  | jint (n : Int) : ReordEq (.jint n) (.jint n)
  | jstr (s : PyStr) : ReordEq (.jstr s) (.jstr s)
  | jlist (l1 l2 : JItems) (m : List JVal) :
      l1.toList.length = m.length →
      (∀ (i : Nat) (x y : JVal), l1.toList[i]? = some x → m[i]? = some y → ReordEq x y) →
      m.Perm l2.toList → ReordEq (.jlist l1) (.jlist l2)
  | jdict (e1 e2 : JEntries) (m : List (PyStr × JVal)) :
      e1.toList.length = m.length →
      (∀ (i : Nat) (p q : PyStr × JVal), e1.toList[i]? = some p → m[i]? = some q →
        p.1 = q.1) →
      (∀ (i : Nat) (p q : PyStr × JVal), e1.toList[i]? = some p → m[i]? = some q →
        ReordEq p.2 q.2) →
      m.Perm e2.toList → ReordEq (.jdict e1) (.jdict e2)

theorem reordEq_refl_n : ∀ (n : Nat) (a : JVal), jsize a ≤ n → ReordEq a a := by
  intro n
  induction n with
  | zero =>
    intro a h
    have := jsize_pos a
    omega
  | succ n ih =>
    intro a h
    cases a with
    | jnull => exact .jnull
    | jbool b => exact .jbool b
    | jint m => exact .jint m
    | jstr s => exact .jstr s
    | jlist l =>
      have hsz : jsize (JVal.jlist l) = 1 + jsizeItems l := by rw [jsize]
      refine .jlist l l l.toList rfl ?_ (List.Perm.refl _)
      refine pointwise_self ?_
      intro x hx
      have := jsize_lt_of_mem_items hx
      exact ih x (by omega)
    | jdict e =>
      have hsz : jsize (JVal.jdict e) = 1 + jsizeEntries e := by rw [jsize]
      refine .jdict e e e.toList rfl (pointwise_self (fun p _ => rfl)) ?_ (List.Perm.refl _)
      refine pointwise_self ?_
      intro p hp
      have := jsize_lt_of_mem_entries hp
      exact ih p.2 (by omega)

theorem reordEq_refl (a : JVal) : ReordEq a a :=
  reordEq_refl_n (jsize a) a (Nat.le_refl _)

/-- C3.  Corrected: the comparator accepts two trees whose dict keys are
reordered at nodes not lying inside any list, and rejects two trees that
differ in exactly one scalar value; the original claim's blanket
reorder-invariance at every depth fails (see the counterexample). -/
theorem claim_C3 (a b : JVal) (ha : WFJ a) (hb : WFJ b) :
    (KeyPermEq a b → are_json_values_equal a b = true) ∧
    (ScalarDiff a b → are_json_values_equal a b = false) := by
  constructor
  · intro hk
    exact keyPermEq_jeq (jsize a) a b (jsize a) (Nat.le_refl _) (Nat.le_refl _) hk ha hb
  · intro hs
    cases hq : are_json_values_equal a b with
    | false => rfl
    | true =>
      have hde : DeepEquiv a b := jeq_deepEquiv (jsize a) a b (jsize a) (Nat.le_refl _) hq
      exact absurd hde (scalarDiff_not_deepEquiv hs ha hb)

/-- Counterexample to the claim as stated: the two lists hold the same two
dicts with keys reordered (so they are equal up to reordering of map keys
at depth two), yet the comparator returns `False`, because each side is
sorted by `repr` and the key order changes the `repr`, so the dicts are
paired crosswise. -/
theorem claim_C3_counterexample :
    ReordEq
        (.jlist (JItems.ofList
          [.jdict (JEntries.ofList [("a".toList, .jint 1), ("b".toList, .jint 2)]),
           .jdict (JEntries.ofList [("a".toList, .jint 2), ("b".toList, .jint 1)])]))
        (.jlist (JItems.ofList
          [.jdict (JEntries.ofList [("b".toList, .jint 2), ("a".toList, .jint 1)]),
           .jdict (JEntries.ofList [("b".toList, .jint 1), ("a".toList, .jint 2)])])) ∧
    are_json_values_equal
        (.jlist (JItems.ofList
          [.jdict (JEntries.ofList [("a".toList, .jint 1), ("b".toList, .jint 2)]),
           .jdict (JEntries.ofList [("a".toList, .jint 2), ("b".toList, .jint 1)])]))
        (.jlist (JItems.ofList
          [.jdict (JEntries.ofList [("b".toList, .jint 2), ("a".toList, .jint 1)]),
           .jdict (JEntries.ofList [("b".toList, .jint 1), ("a".toList, .jint 2)])])) =
      false := by
  constructor
  · have h1 : ReordEq
        (.jdict (JEntries.ofList [("a".toList, .jint 1), ("b".toList, .jint 2)]))
        (.jdict (JEntries.ofList [("b".toList, .jint 2), ("a".toList, .jint 1)])) := by
      refine .jdict _ _ [("a".toList, .jint 1), ("b".toList, .jint 2)] rfl
        (pointwise_self (fun p _ => rfl)) (pointwise_self (fun p _ => reordEq_refl p.2)) ?_
      exact List.Perm.swap _ _ _
    have h2 : ReordEq
        (.jdict (JEntries.ofList [("a".toList, .jint 2), ("b".toList, .jint 1)]))
        (.jdict (JEntries.ofList [("b".toList, .jint 1), ("a".toList, .jint 2)])) := by
      refine .jdict _ _ [("a".toList, .jint 2), ("b".toList, .jint 1)] rfl
        (pointwise_self (fun p _ => rfl)) (pointwise_self (fun p _ => reordEq_refl p.2)) ?_
      exact List.Perm.swap _ _ _
    exact .jlist _ _
      [.jdict (JEntries.ofList [("b".toList, .jint 2), ("a".toList, .jint 1)]),
       .jdict (JEntries.ofList [("b".toList, .jint 1), ("a".toList, .jint 2)])]
      rfl (pointwise_pair h1 h2) (List.Perm.refl _)
  · decide

/-- Witness for C3: a key-reordered flat dict pair compares `True`, and two
distinct integers compare `False`. -/
theorem claim_C3_witness :
    are_json_values_equal
        (.jdict (JEntries.ofList [("a".toList, .jint 1), ("b".toList, .jint 2)]))
        (.jdict (JEntries.ofList [("b".toList, .jint 2), ("a".toList, .jint 1)])) = true ∧
    are_json_values_equal (.jint 1) (.jint 2) = false := by
  constructor
  · have wf1 : WFJ (.jdict (JEntries.ofList
        [("a".toList, .jint 1), ("b".toList, .jint 2)])) := by
      apply WFJ.jdict
      · decide
      · intro kv hkv
        rcases List.mem_cons.mp hkv with he | hm
        · rw [he]
          exact WFJ.jint 1
        · rcases List.mem_cons.mp hm with he2 | hm2
          · rw [he2]
            exact WFJ.jint 2
          · cases hm2
    have wf2 : WFJ (.jdict (JEntries.ofList
        [("b".toList, .jint 2), ("a".toList, .jint 1)])) := by
      apply WFJ.jdict
      · decide
      · intro kv hkv
        rcases List.mem_cons.mp hkv with he | hm
        · rw [he]
          exact WFJ.jint 2
        · rcases List.mem_cons.mp hm with he2 | hm2
          · rw [he2]
            exact WFJ.jint 1
          · cases hm2
    have hkpe : KeyPermEq
        (.jdict (JEntries.ofList [("a".toList, .jint 1), ("b".toList, .jint 2)]))
        (.jdict (JEntries.ofList [("b".toList, .jint 2), ("a".toList, .jint 1)])) := by
      refine .jdict _ _ [("a".toList, .jint 1), ("b".toList, .jint 2)] rfl
        (pointwise_self (fun p _ => rfl)) (pointwise_self (fun p _ => KeyPermEq.refl _)) ?_
      exact List.Perm.swap _ _ _
    exact (claim_C3 _ _ wf1 wf2).1 hkpe
  · exact (claim_C3 _ _ (WFJ.jint 1) (WFJ.jint 2)).2
      (ScalarDiff.prim _ _ rfl rfl (by decide))

/-! ### TaskResult (src/utils.py:17-59) and `json.dumps` -/

/-- One character of `json.dumps` output (default flags, so `ensure_ascii`
escapes everything outside printable ASCII, with surrogate pairs above the
BMP). -/
def jsonEscChar (c : Char) : PyStr :=
  if c == dquote then [bslash, dquote]
  else if c == bslash then [bslash, bslash]
  else if c == '\t' then [bslash, 't']
  else if c == '\n' then [bslash, 'n']
  else if c == '\r' then [bslash, 'r']
  else if c.toNat == 8 then [bslash, 'b']
  else if c.toNat == 12 then [bslash, 'f']
  else if c.toNat < 32 || c.toNat > 126 then
    if c.toNat < 65536 then
      [bslash, 'u', hexDig (c.toNat / 4096 % 16), hexDig (c.toNat / 256 % 16),
        hexDig (c.toNat / 16 % 16), hexDig (c.toNat % 16)]
    else
      [bslash, 'u', hexDig ((55296 + (c.toNat - 65536) / 1024) / 4096 % 16),
        hexDig ((55296 + (c.toNat - 65536) / 1024) / 256 % 16),
        hexDig ((55296 + (c.toNat - 65536) / 1024) / 16 % 16),
        hexDig ((55296 + (c.toNat - 65536) / 1024) % 16),
        bslash, 'u', hexDig ((56320 + (c.toNat - 65536) % 1024) / 4096 % 16),
        hexDig ((56320 + (c.toNat - 65536) % 1024) / 256 % 16),
        hexDig ((56320 + (c.toNat - 65536) % 1024) / 16 % 16),
        hexDig ((56320 + (c.toNat - 65536) % 1024) % 16)]
  else [c]

/-- `json.dumps` of a string, double-quoted. -/
def jsonStr (s : PyStr) : PyStr :=
  dquote :: (s.map jsonEscChar).flatten ++ [dquote]

/-- `json.dumps` with the default separators (fuelled; `jsonDumps` below
supplies enough fuel for the whole tree). -/
def jsonDumpsFuel : Nat → JVal → PyStr
  | 0, _ => []
  | f + 1, v =>
    match v with
    | .jnull => "null".toList
    | .jbool b => if b then "true".toList else "false".toList
    | .jint n => (toString n).toList
    | .jstr s => jsonStr s
    | .jlist l => '[' :: commaSep (l.toList.map (jsonDumpsFuel f)) ++ [']']
    | .jdict e =>
      lbrace :: commaSep (e.toList.map (fun kv =>
        jsonStr kv.1 ++ ": ".toList ++ jsonDumpsFuel f kv.2)) ++ [rbrace]

/-- `json.dumps` (src/utils.py:55). -/
def jsonDumps (v : JVal) : PyStr := jsonDumpsFuel (jsize v) v

/-- Embedding of `Result` (src/utils.py:17-20). -/
structure Result where
  success : Bool
  errors : List PyStr

/-- Embedding of `TaskResult` (src/utils.py:23-59): the stored
`expected_output` is a string. -/
structure TaskResult where
  run : Int
  result : Result
  response : PyStr
  code : PyStr
  output : PyStr
  expected_output : PyStr
  errors : List PyStr
  tokens : Int × Int

/-- `TaskResult.__init__` (src/utils.py:34-55): the `expected_output`
argument is a runtime value that may be a string or a JSON tree
(`isinstance(expected_output, str)` dispatch); a non-string is stored as
its `json.dumps` serialization. -/
def TaskResult.init (run : Int) (success : Bool) (errors : List PyStr)
    (response code output : PyStr) (expected_output : JVal)
    (tokens : Int × Int) : TaskResult :=
  { run := run
    result := ⟨success, errors⟩
    response := response
    code := code
    output := output
    expected_output :=
      match expected_output with
      | .jstr s => s
      | v => jsonDumps v
    errors := errors
    tokens := tokens }

/-- `TaskResult.error` (src/utils.py:57-59). -/
def TaskResult.error (run : Int) (errors : List PyStr) : TaskResult :=
  TaskResult.init run false errors [] [] [] (.jstr []) (0, 0)

/-- C8.  However a `TaskResult` is built — through the constructor with a
string, a dict or a list as expected output, or through the
`TaskResult.error` shorthand — the stored `expected_output` is a string:
the supplied string itself, or the `json.dumps` serialization of the
supplied tree. -/
theorem claim_C8 (run : Int) (success : Bool) (errors : List PyStr)
    (response code output : PyStr) (tokens : Int × Int) :
    (∀ s : PyStr,
      (TaskResult.init run success errors response code output (.jstr s) tokens).expected_output
        = s) ∧
    (∀ d : JEntries,
      (TaskResult.init run success errors response code output (.jdict d) tokens).expected_output
        = jsonDumps (.jdict d)) ∧
    (∀ l : JItems,
      (TaskResult.init run success errors response code output (.jlist l) tokens).expected_output
        = jsonDumps (.jlist l)) ∧
    (TaskResult.error run errors).expected_output = [] :=
  ⟨fun _ => rfl, fun _ => rfl, fun _ => rfl, rfl⟩

/-! ### Run-task process lifecycle and dispatch (src/exec_rust/exec_run.py,
src/exec_swift/exec_run.py, src/exec_python/exec_run.py, src/executor.py) -/

/-- Embedding of `Language` (src/task.py). -/
inductive Language where
  | RUST
  | SWIFT
  | TYPESCRIPT
  | PYTHON

/-- Embedding of `TaskRun` (src/task.py): the expected output is a runtime
value, a string or a JSON tree. -/
structure TaskRun where
  prompt : PyStr
  request : PyStr
  expected_output : JVal

/-- What a successful HTTP probe of the spawned server returned: body text
and the result of parsing the body as JSON (`none` = `JSONDecodeError`). -/
structure HttpResponse where
  text : PyStr
  jsonBody : Option JVal

/-- The outside world of one `exec_run` call: what each effectful step
would yield.  `queryOutcome` is `query_code` (an exception message, a falsy
result, or code/response/token counts); `codePath` is `prepare_codebase`;
`checkResult` is the compile/lint check; `spawnOk` is whether the server
process started; `probe` is the HTTP request (`none` = RequestException or
non-2xx status). -/
structure RunEnv where
  queryOutcome : Except PyStr (Option (PyStr × PyStr × Int × Int))
  codePath : Option PyStr
  checkResult : Result
  spawnOk : Bool
  probe : Option HttpResponse

/-- A Python call either returns a value or lets an exception escape. -/
inductive PyOutcome (α : Type) where
  | ret (a : α)
  | raise (e : PyStr)

/-- What one `exec_run` call did: its outcome, whether a server process was
spawned, and whether it was sent a termination signal. -/
structure RunTrace where
  outcome : PyOutcome TaskResult
  spawned : Bool
  terminated : Bool

/-- The comparison tail shared by the `exec_run` adapters
(src/exec_rust/exec_run.py:96-131): dispatch on the runtime type of
`task.expected_output`.  In the dict branch `http_response.json()` is
called outside any `try`, so a body that is not valid JSON raises. -/
def runCompare (run : Int) (response code : PyStr) (pt ct : Int)
    (resp : HttpResponse) (eo : JVal) : PyOutcome TaskResult :=
  match eo with
  | .jstr s => .ret (TaskResult.init run (pyStrip resp.text == pyStrip s) []
      response code resp.text (.jstr s) (pt, ct))
  | .jdict d =>
    match resp.jsonBody with
    | none => .raise "JSONDecodeError".toList
    | some j => .ret (TaskResult.init run (are_json_values_equal j (.jdict d)) []
        response code (jsonDumps j) (.jdict d) (pt, ct))
  | v => .ret (TaskResult.init run false ["Invalid expected output type".toList]
      response code [] (.jstr (pyRepr v)) (pt, ct))

/-- Embedding of the rust `exec_run` control flow
(src/exec_rust/exec_run.py:14-131).  On probe failure it returns from the
`except` branch (lines 80-91) without reaching `thread.join()` and
`process.terminate()` (lines 93-94), so the trace records the process as
spawned but not terminated. -/
def rustExecRun (task : TaskRun) (env : RunEnv) (run : Int) : RunTrace :=
  match env.queryOutcome with
  | .error e => ⟨.ret (TaskResult.error run [e]), false, false⟩
  | .ok none =>
    ⟨.ret (TaskResult.init run false ["Failed to query code".toList] [] [] []
      task.expected_output (0, 0)), false, false⟩
  | .ok (some (code, response, pt, ct)) =>
    match env.codePath with
    | none =>
      ⟨.ret (TaskResult.init run false ["Failed to prepare codebase".toList]
        response code [] task.expected_output (pt, ct)), false, false⟩
    | some _ =>
      if env.checkResult.success then
        if env.spawnOk then
          match env.probe with
          | none =>
            ⟨.ret (TaskResult.init run false ["Failed to make HTTP request".toList]
              response code [] task.expected_output (pt, ct)), true, false⟩
          | some resp =>
            ⟨runCompare run response code pt ct resp task.expected_output, true, true⟩
        else
          ⟨.ret (TaskResult.init run false ["Failed to run rust project".toList]
            response code [] task.expected_output (pt, ct)), false, false⟩
      else
        ⟨.ret (TaskResult.init run false env.checkResult.errors response code []
          task.expected_output (pt, ct)), false, false⟩

/-- Embedding of the swift `exec_run` control flow
(src/exec_swift/exec_run.py), which mirrors the rust adapter, including the
missing termination on the probe-failure path. -/
def swiftExecRun (task : TaskRun) (env : RunEnv) (run : Int) : RunTrace :=
  match env.queryOutcome with
  | .error e => ⟨.ret (TaskResult.error run [e]), false, false⟩
  | .ok none =>
    ⟨.ret (TaskResult.init run false ["Failed to query code".toList] [] [] []
      task.expected_output (0, 0)), false, false⟩
  | .ok (some (code, response, pt, ct)) =>
    match env.codePath with
    | none =>
      ⟨.ret (TaskResult.init run false ["Failed to prepare codebase".toList]
        response code [] task.expected_output (pt, ct)), false, false⟩
    | some _ =>
      if env.checkResult.success then
        if env.spawnOk then
          match env.probe with
          | none =>
            ⟨.ret (TaskResult.init run false ["Failed to make HTTP request".toList]
              response code [] task.expected_output (pt, ct)), true, false⟩
          | some resp =>
            ⟨runCompare run response code pt ct resp task.expected_output, true, true⟩
        else
          ⟨.ret (TaskResult.init run false ["Failed to run swift project".toList]
            response code [] task.expected_output (pt, ct)), false, false⟩
      else
        ⟨.ret (TaskResult.init run false env.checkResult.errors response code []
          task.expected_output (pt, ct)), false, false⟩

/-- Embedding of the python `exec_run` control flow
(src/exec_python/exec_run.py:15-141).  There is no early return for a
failed spawn, and the HTTP request sits in a `try`/`finally` whose
`finally` terminates the process whenever one was spawned — on the failure
branch as well as on the success path. -/
def pythonExecRun (task : TaskRun) (env : RunEnv) (run : Int) : RunTrace :=
  match env.queryOutcome with
  | .error e => ⟨.ret (TaskResult.error run [e]), false, false⟩
  | .ok none =>
    ⟨.ret (TaskResult.init run false ["Failed to query code".toList] [] [] []
      task.expected_output (0, 0)), false, false⟩
  | .ok (some (code, response, pt, ct)) =>
    match env.codePath with
    | none =>
      ⟨.ret (TaskResult.init run false ["Failed to prepare codebase".toList]
        response code [] task.expected_output (pt, ct)), false, false⟩
    | some _ =>
      if env.checkResult.success then
        match env.probe with
        | none =>
          ⟨.ret (TaskResult.init run false ["Failed to make HTTP request".toList]
            response code [] task.expected_output (pt, ct)), env.spawnOk, env.spawnOk⟩
        | some resp =>
          ⟨runCompare run response code pt ct resp task.expected_output,
            env.spawnOk, env.spawnOk⟩
      else
        ⟨.ret (TaskResult.init run false env.checkResult.errors response code []
          task.expected_output (pt, ct)), false, false⟩

/-- `Executor.call` on a Run task (src/executor.py:24-25, 55-65): dispatch
to the adapter's `exec_run`, whose outcome — return or uncaught exception —
is passed through unchanged.  The `exec_typescript` package has no
`exec_run` module, so that dispatch raises `AttributeError`. -/
def executorCallRun (lang : Language) (task : TaskRun) (env : RunEnv) (run : Int) :
    PyOutcome TaskResult :=
  match lang with
  | .RUST => (rustExecRun task env run).outcome
  | .SWIFT => (swiftExecRun task env run).outcome
  | .TYPESCRIPT => .raise "AttributeError".toList
  | .PYTHON => (pythonExecRun task env run).outcome

/-- C1.  Refuted: the rust adapter's `exec_run` can return with the server
process spawned but never sent a termination signal — when the HTTP probe
fails it returns from the `except` branch without reaching
`process.terminate()`.  The python adapter, by contrast, terminates exactly
when it spawned, on every path. -/
theorem claim_C1 :
    (∃ (task : TaskRun) (env : RunEnv) (run : Int),
      (rustExecRun task env run).spawned = true ∧
      (rustExecRun task env run).terminated = false) ∧
    (∀ (task : TaskRun) (env : RunEnv) (run : Int),
      (pythonExecRun task env run).terminated = (pythonExecRun task env run).spawned) := by
  constructor
  · exact ⟨⟨[], [], .jstr []⟩,
      ⟨.ok (some ([], [], 0, 0)), some [], ⟨true, []⟩, true, none⟩, 0, rfl, rfl⟩
  · intro task env run
    obtain ⟨q, cp, chk, sp, pr⟩ := env
    cases q with
    | error e => rfl
    | ok r =>
      cases r with
      | none => rfl
      | some quad =>
        obtain ⟨code, response, pt, ct⟩ := quad
        cases cp with
        | none => rfl
        | some p =>
          obtain ⟨succ, errs⟩ := chk
          cases succ with
          | false => rfl
          | true =>
            cases pr with
            | none => rfl
            | some resp => rfl

/-- C2.  Refuted: for a Rust Run task whose expected output is a dict and
whose probe returns a body that is not valid JSON, `exec_run` raises
`JSONDecodeError` at `http_response.json()` (called outside any `try`),
and `Executor.call` propagates the exception to its caller instead of
returning a `TaskResult`. -/
theorem claim_C2 :
    ∃ (task : TaskRun) (env : RunEnv) (run : Int),
      executorCallRun .RUST task env run = .raise "JSONDecodeError".toList :=
  ⟨⟨[], [], .jdict .nil⟩,
    ⟨.ok (some ([], [], 0, 0)), some [], ⟨true, []⟩, true,
      some ⟨"not json".toList, none⟩⟩, 0, rfl⟩

end Spec2Proof
